import Mathlib

/-!
Verification of the simplicial knowledge-graph core: a shallow embedding of
the simplex-tree index (`simplex_tree.py`), the canonicalizing knowledge
store (`extraction.py`), the witness-complex builder (`pipeline.py`) and the
gap-detection step of the retriever (`retrieval.py`), together with theorems
settling the specification claims.

The SQLite tables are modelled as association lists in rowid order; a row's
key is its autoincrement id (`lastrowid`).  All queries in the source filter
on a fixed `user_id`, and no claim crosses users, so the embedding models a
single user's partition of each table.  Timestamps handled by the witness
builder are modelled as integers (seconds), so `timedelta(minutes=w)`
becomes `60 * w`.  JSON meta-data blobs stored on simplex-tree nodes are
round-tripped but never inspected by the code under study, so they are
modelled as opaque strings.
-/

namespace SimplicialMemories

/-- Model of Python `sorted` on a list of integers. -/
def sortInts (l : List Int) : List Int := List.insertionSort (· ≤ ·) l

/-! ## Simplex tree (`src/simplex_tree.py`)

A row of the `simplex_vertex` table, minus the fixed `user_id` column.
`node_id` is the association-list key. -/

structure SNode where
  parent_id : Option Nat
  vertex_id : Int
  depth : Nat
  type : String
  meta_data : String
deriving Repr, DecidableEq

/-- One user's partition of the `simplex_vertex` table: rows in rowid order,
plus the next rowid to be assigned (SQLite rowids start at 1). -/
structure TreeDB where
  rows : List (Nat × SNode)
  next_id : Nat
deriving Repr, DecidableEq

def TreeDB.empty : TreeDB := ⟨[], 1⟩

/-- The `SELECT node_id FROM simplex_vertex WHERE parent_id = ? AND
vertex_id = ?` sibling lookup (with `parent_id IS NULL` when the parent is
`none`), used by both `search_simplex` and `insert_simplex`. -/
def findChild (db : TreeDB) (par : Option Nat) (v : Int) : Option Nat :=
  (db.rows.find? fun r => r.2.parent_id == par && r.2.vertex_id == v).map Prod.fst

/-- The traversal loop shared by `search_simplex`: walk the sorted vertex
list from `cur`, failing when a child is missing. -/
def searchWalk (db : TreeDB) : List Int → Option Nat → Option Nat
  | [], cur => cur
  | v :: vs, cur =>
    match findChild db cur v with
    | none => none
    | some nid => searchWalk db vs (some nid)

/-- `SimplexTree.search_simplex`. -/
def search_simplex (db : TreeDB) (vertex_ids : List Int) : Option Nat :=
  if vertex_ids = [] then none
  else searchWalk db (sortInts vertex_ids) none

/-- The traversal loop of `insert_simplex`: follow existing children, create
missing ones with `depth = current_depth + 1` and the given type/meta. -/
def insertWalk (t mj : String) : List Int → Option Nat → Nat → TreeDB → TreeDB × Option Nat
  | [], cur, _, db => (db, cur)
  | v :: vs, cur, depth, db =>
    match findChild db cur v with
    | some nid => insertWalk t mj vs (some nid) (depth + 1) db
    | none =>
      let nid := db.next_id
      insertWalk t mj vs (some nid) (depth + 1)
        ⟨db.rows ++ [(nid, ⟨cur, v, depth + 1, t, mj⟩)], nid + 1⟩

/-- `SimplexTree.insert_simplex`.  The `ValueError` on an empty vertex list
and the `RuntimeError` when no terminal node exists become `Except.error`. -/
def insert_simplex (db : TreeDB) (vertex_ids : List Int) (simplex_type meta_json : String) :
    Except String (TreeDB × Nat) :=
  if vertex_ids = [] then .error "Cannot insert empty simplex"
  else
    match insertWalk simplex_type meta_json (sortInts vertex_ids) none 0 db with
    | (db', some nid) => .ok (db', nid)
    | (_, none) => .error "No simplex vertex created"

/-- The upward traversal of `SimplexTree._collect_path`, with explicit fuel
for termination (a parent chain in a well-formed table has length at most
the number of rows, since every parent id is strictly smaller).  The rows
created by `insert_simplex` always carry a vertex id, so the source's
`if row["vertex_id"] is not None` guard is always true. -/
def collectPathAcc (db : TreeDB) : Nat → Option Nat → List Int
  | _, none => []
  | 0, some _ => []
  | fuel + 1, some nid =>
    match db.rows.lookup nid with
    | none => []
    | some nd => nd.vertex_id :: collectPathAcc db fuel nd.parent_id

/-- `SimplexTree._collect_path`: vertex ids from the root down to `nid`. -/
def collectPath (db : TreeDB) (nid : Nat) : List Int :=
  (collectPathAcc db db.rows.length (some nid)).reverse

/-- The `SELECT ... WHERE parent_id = ?` child enumeration. -/
def childrenOf (db : TreeDB) (pid : Nat) : List (Nat × SNode) :=
  db.rows.filter fun r => r.2.parent_id == some pid

/-- The early-return guard of `_collect_subtree`:
`max_extra_depth is not None and current_extra_depth >= max_extra_depth`. -/
def subtreeStop : Option Nat → Nat → Bool
  | some mx, cur => mx ≤ cur
  | none, _ => false

/-- `SimplexTree._collect_subtree` (vertex-list variant): every descendant's
path, each listed before its own descendants, cut off by `max_extra`. -/
def collectSubtree (db : TreeDB) : Nat → Nat → List Int → Option Nat → Nat → List (List Int)
  | 0, _, _, _, _ => []
  | fuel + 1, root_id, root_verts, max_extra, cur =>
    if subtreeStop max_extra cur then []
    else
      (childrenOf db root_id).flatMap fun c =>
        (root_verts ++ [c.2.vertex_id]) ::
          collectSubtree db fuel c.1 (root_verts ++ [c.2.vertex_id]) max_extra (cur + 1)

/-- One `v in it` step of `_is_subsequence`: consume the haystack through
the first occurrence of `v`. -/
def consumeTo (v : Int) : List Int → Option (List Int)
  | [] => none
  | h :: t => if h == v then some t else consumeTo v t

/-- `SimplexTree._is_subsequence`: a two-pointer subsequence test over a
shared iterator. -/
def isSubseq : List Int → List Int → Bool
  | [], _ => true
  | v :: vs, hay =>
    match consumeTo v hay with
    | none => false
    | some rest => isSubseq vs rest

/-- `SimplexTree.locate_cofaces` (vertex-list variant,
`include_metadata=False`).  The implementation's default for
`max_extra_depth` is `some 0`; `none` means unlimited descent. -/
def locate_cofaces (db : TreeDB) (vertex_ids : List Int) (max_extra_depth : Option Nat) :
    List (List Int) :=
  if vertex_ids = [] then []
  else
    (db.rows.filter fun r =>
        r.2.vertex_id == (sortInts vertex_ids).getLastD 0 &&
        decide ((sortInts vertex_ids).length ≤ r.2.depth)).flatMap fun c =>
      if isSubseq (sortInts vertex_ids) (collectPath db c.1) then
        collectPath db c.1 ::
          collectSubtree db db.rows.length c.1 (collectPath db c.1) max_extra_depth 0
      else []

/-- `SimplexTree.enumerate_theoretical_faces`: all nonempty subsets of the
sorted vertex list, enumerated by bitmask `1 .. 2^n - 1`. -/
def enumerate_theoretical_faces (vertex_ids : List Int) : List (List Int) :=
  let vs := sortInts vertex_ids
  ((List.range (2 ^ vs.length)).drop 1).map fun mask =>
    (vs.enum.filter fun p => mask.testBit p.1).map Prod.snd

/-! ## Insert histories

Claims about "a tree built only by `insert_simplex` calls" quantify over
lists of calls replayed from the empty table. -/

structure InsertCall where
  vertex_ids : List Int
  simplex_type : String
  meta_json : String
deriving Repr, DecidableEq

/-- Replay one `insert_simplex` call; a raised error leaves the table
unchanged (the source raises before any write when the list is empty). -/
def stepInsert (db : TreeDB) (c : InsertCall) : TreeDB :=
  match insert_simplex db c.vertex_ids c.simplex_type c.meta_json with
  | .ok (db', _) => db'
  | .error _ => db

def execInserts (h : List InsertCall) : TreeDB :=
  h.foldl stepInsert TreeDB.empty

/-! ## Gap detection (`src/retrieval.py`) -/

/-- `KnowledgeRetriever.detect_gaps`: for each coface of size at least 2,
enumerate its theoretical faces; a face of size at least 2 not found by
`search_simplex` and not already considered is a gap.  `seen` is the
`seen_faces` set, `gaps` the accumulated gap list. -/
def detect_gaps (db : TreeDB) (cofaces : List (List Int)) : List (List Int) :=
  (cofaces.foldl
    (fun st coface =>
      if coface.length < 2 then st
      else
        (enumerate_theoretical_faces coface).foldl
          (fun st face =>
            if st.1.contains face then st
            else
              let seen := face :: st.1
              if 1 < face.length ∧ search_simplex db face = none then (seen, st.2 ++ [face])
              else (seen, st.2))
          st)
    (([], []) : List (List Int) × List (List Int))).2

/-! ## Knowledge store (`src/extraction.py`)

The embedding function is a black-box collaborator, so the store is
parametrized by the embedding type `E` and an arbitrary `embed` function. -/

/-- Python `str.lower()`, character-wise (the contents handled by the store
are modelled over the character range where `lower` and `casefold`
coincide). -/
def pyLower (s : String) : String := ⟨s.data.map Char.toLower⟩

/-- Python `str.strip()` on a character list. -/
def stripChars (l : List Char) : List Char :=
  ((l.dropWhile Char.isWhitespace).reverse.dropWhile Char.isWhitespace).reverse

/-- Python `str.strip()`. -/
def pyStrip (s : String) : String := ⟨stripChars s.data⟩

/-- The canonical key computed by `get_or_create_vertex`:
`content.lower().strip()`. -/
def canonicalKey (content : String) : String := pyStrip (pyLower content)

/-- The vertex `meta_data` blob as created and updated by the store. -/
structure VMeta where
  first_seen : String
  last_seen : String
  frequency : Nat
deriving Repr, DecidableEq

/-- A row of `user_knowledge_vertex`, minus the fixed `user_id` column. -/
structure VertexRow (E : Type) where
  content : String
  embedding : E
  meta_data : VMeta
deriving Repr, DecidableEq

/-- The state owned by one `KnowledgeStore`: the vertex table (keyed by
`vertex_id` in rowid order) and the write-through canonicalization cache.
The cache is a Python dict; assignment shadows, lookup sees the latest
binding. -/
structure StoreState (E : Type) where
  vertices : List (Nat × VertexRow E)
  next_vid : Nat
  cache : List (String × Nat)
deriving Repr, DecidableEq

def StoreState.empty (E : Type) : StoreState E := ⟨[], 1, []⟩

/-- `KnowledgeStore._update_vertex_metadata`: fetch the row, bump
`frequency`, set `last_seen`, write the meta back.  A missing row (the
source would raise on `row["meta_data"]`) is `none`. -/
def update_vertex_metadata {E : Type} (st : StoreState E) (vid : Nat) (ts : String) :
    Option (StoreState E) :=
  match st.vertices.lookup vid with
  | none => none
  | some row =>
    let meta' : VMeta := ⟨row.meta_data.first_seen, ts, row.meta_data.frequency + 1⟩
    some { st with
      vertices := st.vertices.map fun r =>
        if r.1 == vid then (r.1, { r.2 with meta_data := meta' }) else r }

/-- `KnowledgeStore.get_or_create_vertex`. -/
def get_or_create_vertex {E : Type} (embed : String → E) (st : StoreState E)
    (content ts : String) : Option (StoreState E × Nat) :=
  match st.cache.lookup (canonicalKey content) with
  | some vid =>
    match update_vertex_metadata st vid ts with
    | some st' => some (st', vid)
    | none => none
  | none =>
    some ({ vertices := st.vertices ++ [(st.next_vid, ⟨content, embed content, ⟨ts, ts, 1⟩⟩)],
            next_vid := st.next_vid + 1,
            cache := (canonicalKey content, st.next_vid) :: st.cache }, st.next_vid)

/-! ## Witness-complex builder (`src/pipeline.py`) -/

/-- Python dict read with a `defaultdict` default. -/
def dictGetD {α : Type} (m : List (String × α)) (k : String) (d : α) : α :=
  (m.lookup k).getD d

/-- Python dict assignment: the new binding shadows older ones. -/
def dictSet {α : Type} (m : List (String × α)) (k : String) (v : α) : List (String × α) :=
  (k, v) :: m

/-- The mutable state of `WitnessComplexBuilder` (the simplex tree it writes
to is passed alongside). -/
structure Builder where
  window_minutes : Int
  temporal_vertices : Finset Int
  window_start : Option Int
  window_end : Option Int
  location_vertices : List (String × Finset Int)
  location_timestamps : List (String × List Int)
  location_simplex_ids : List (String × Nat)
deriving DecidableEq

def Builder.init (w : Int) : Builder := ⟨w, ∅, none, none, [], [], []⟩

/-- `WitnessComplexBuilder._flush_temporal_window`: insert the window as a
`"temporal"` simplex when it has at least two vertices and both window
bounds are set. -/
def flushTemporal (b : Builder) (db : TreeDB) : TreeDB :=
  match b.window_start, b.window_end with
  | some ws, some we =>
    if 2 ≤ b.temporal_vertices.card then
      match insert_simplex db (Finset.sort (· ≤ ·) b.temporal_vertices) "temporal"
          ("window_start=" ++ toString ws ++ ";window_end=" ++ toString we ++
            ";window_minutes=" ++ toString b.window_minutes) with
      | .ok (db', _) => db'
      | .error _ => db
    else db
  | _, _ => db

/-- `WitnessComplexBuilder._update_location_simplex`: when the location's
vertex set has at least two vertices, insert it as a `"location"` simplex
and remember the node id.  The commented-out removal of the old simplex in
the source does nothing. -/
def updateLocationSimplex (b : Builder) (db : TreeDB) (loc : String) : Builder × TreeDB :=
  if (dictGetD b.location_vertices loc ∅).card < 2 then (b, db)
  else
    match insert_simplex db (Finset.sort (· ≤ ·) (dictGetD b.location_vertices loc ∅)) "location"
        ("location=" ++ loc ++
          ";first_seen=" ++ toString (((dictGetD b.location_timestamps loc []).min?).getD 0) ++
          ";last_seen=" ++ toString (((dictGetD b.location_timestamps loc []).max?).getD 0) ++
          ";entry_count=" ++ toString (dictGetD b.location_timestamps loc []).length) with
    | .ok (db', nid) => ({ b with location_simplex_ids := dictSet b.location_simplex_ids loc nid }, db')
    | .error _ => (b, db)

/-- The temporal transition of `WitnessComplexBuilder.add_entry`: start,
extend, or flush-and-restart the rolling window. -/
def temporalStep (b : Builder) (db : TreeDB) (vertex_ids : List Int) (timestamp : Int) :
    Builder × TreeDB :=
  match b.window_start, b.window_end with
  | some _, some we =>
    if timestamp - we ≤ 60 * b.window_minutes then
      ({ b with temporal_vertices := b.temporal_vertices ∪ vertex_ids.toFinset,
                window_end := some timestamp }, db)
    else
      ({ b with temporal_vertices := vertex_ids.toFinset,
                window_start := some timestamp,
                window_end := some timestamp }, flushTemporal b db)
  | _, _ =>
    ({ b with temporal_vertices := vertex_ids.toFinset,
              window_start := some timestamp,
              window_end := some timestamp }, db)

/-- The location transition of `WitnessComplexBuilder.add_entry`, skipped
for `none` and for the falsy empty string. -/
def locationStep (b : Builder) (db : TreeDB) (vertex_ids : List Int) (timestamp : Int)
    (location : Option String) : Builder × TreeDB :=
  match location with
  | some loc =>
    if loc = "" then (b, db)
    else
      updateLocationSimplex
        { b with
          location_vertices :=
            dictSet b.location_vertices loc (dictGetD b.location_vertices loc ∅ ∪ vertex_ids.toFinset),
          location_timestamps :=
            dictSet b.location_timestamps loc (dictGetD b.location_timestamps loc [] ++ [timestamp]) }
        db loc
  | none => (b, db)

/-- `WitnessComplexBuilder.add_entry`: the temporal transition runs first,
then the location transition. -/
def add_entry (b : Builder) (db : TreeDB) (vertex_ids : List Int) (timestamp : Int)
    (location : Option String) : Builder × TreeDB :=
  if vertex_ids = [] then (b, db)
  else
    locationStep (temporalStep b db vertex_ids timestamp).1
      (temporalStep b db vertex_ids timestamp).2 vertex_ids timestamp location

/-! ## Structural predicates used by the invariant proofs -/

/-- Root-to-node path of an optional node id; `[]` above the roots. -/
def pathOfOpt (db : TreeDB) : Option Nat → List Int
  | none => []
  | some nid => collectPath db nid

/-- Row `c` is a child of row `a`. -/
def ChildRel (db : TreeDB) (a c : Nat) : Prop :=
  ∃ nd, (c, nd) ∈ db.rows ∧ nd.parent_id = some a

/-- Row `m` is a proper descendant of row `a`. -/
def Desc (db : TreeDB) : Nat → Nat → Prop :=
  Relation.TransGen (ChildRel db)

/-- The optional parent handed to a trie walk denotes an existing row. -/
def parentOk (db : TreeDB) : Option Nat → Prop
  | none => True
  | some p => ∃ nd, (p, nd) ∈ db.rows

/-- Basic well-formedness of the `simplex_vertex` table, as maintained by
`insert_simplex`: rowids are `1 .. n` in order, the next rowid is `n + 1`,
and every parent id points strictly backwards. -/
structure WF0 (db : TreeDB) : Prop where
  ids : db.rows.map Prod.fst = List.range' 1 db.rows.length
  nxt : db.next_id = db.rows.length + 1
  par : ∀ r ∈ db.rows, ∀ p, r.2.parent_id = some p → 1 ≤ p ∧ p < r.1

/-- Full well-formedness: additionally each row's `depth` column equals the
length of its root-to-self path. -/
structure WF (db : TreeDB) extends WF0 db : Prop where
  dep : ∀ r ∈ db.rows, r.2.depth = (collectPath db r.1).length

/-! ## Basic lemmas: the table only ever grows, and lookups are stable -/

theorem find?_append_some {α : Type} {p : α → Bool} {l₁ l₂ : List α} {a : α}
    (h : l₁.find? p = some a) : (l₁ ++ l₂).find? p = some a := by
  rw [List.find?_append, h]; rfl

theorem findChild_mono {db db' : TreeDB} {cur : Option Nat} {v : Int} {n : Nat}
    (hpre : db.rows <+: db'.rows) (h : findChild db cur v = some n) :
    findChild db' cur v = some n := by
  obtain ⟨ext, hext⟩ := hpre
  unfold findChild at h ⊢
  obtain ⟨r, hr, hfst⟩ := Option.map_eq_some'.mp h
  rw [← hext, find?_append_some hr]
  simp [hfst]

theorem searchWalk_mono {db db' : TreeDB} (hpre : db.rows <+: db'.rows) :
    ∀ (l : List Int) (cur : Option Nat) (n : Nat),
      searchWalk db l cur = some n → searchWalk db' l cur = some n := by
  intro l
  induction l with
  | nil => intro cur n h; exact h
  | cons v vs ih =>
    intro cur n h
    unfold searchWalk at h ⊢
    cases hf : findChild db cur v with
    | none => rw [hf] at h; exact absurd h (by simp)
    | some c => rw [hf] at h; rw [findChild_mono hpre hf]; exact ih _ _ h

theorem insertWalk_rows_pre (t mj : String) :
    ∀ (vs : List Int) (cur : Option Nat) (depth : Nat) (db : TreeDB),
      db.rows <+: (insertWalk t mj vs cur depth db).1.rows := by
  intro vs
  induction vs with
  | nil => intro cur depth db; exact List.prefix_rfl
  | cons v vs ih =>
    intro cur depth db
    unfold insertWalk
    cases hf : findChild db cur v with
    | some c => exact ih _ _ _
    | none =>
      refine List.IsPrefix.trans ?_ (ih _ _ _)
      exact ⟨[(db.next_id, ⟨cur, v, depth + 1, t, mj⟩)], rfl⟩

theorem findChild_append_new {db : TreeDB} {cur : Option Nat} {v : Int}
    (hf : findChild db cur v = none) (nd : SNode) (nid nx : Nat)
    (hp : nd.parent_id = cur) (hv : nd.vertex_id = v) :
    findChild ⟨db.rows ++ [(nid, nd)], nx⟩ cur v = some nid := by
  unfold findChild at hf ⊢
  rw [List.find?_append]
  rw [Option.map_eq_none'] at hf
  rw [hf]
  simp [List.find?, hp, hv]

/-- After `insertWalk`, re-walking the same vertex list from the same start
finds exactly the returned terminal node. -/
theorem insertWalk_searchWalk (t mj : String) :
    ∀ (vs : List Int) (cur : Option Nat) (depth : Nat) (db : TreeDB),
      searchWalk (insertWalk t mj vs cur depth db).1 vs cur =
        (insertWalk t mj vs cur depth db).2 := by
  intro vs
  induction vs with
  | nil => intro cur depth db; rfl
  | cons v vs ih =>
    intro cur depth db
    unfold insertWalk
    cases hf : findChild db cur v with
    | some c =>
      have hc := findChild_mono (insertWalk_rows_pre t mj vs (some c) (depth + 1) db) hf
      unfold searchWalk
      rw [hc]
      exact ih _ _ _
    | none =>
      set db₀ : TreeDB := ⟨db.rows ++ [(db.next_id, ⟨cur, v, depth + 1, t, mj⟩)], db.next_id + 1⟩
      have h₀ : findChild db₀ cur v = some db.next_id :=
        findChild_append_new hf _ _ _ rfl rfl
      have hc := findChild_mono (insertWalk_rows_pre t mj vs (some db.next_id) (depth + 1) db₀) h₀
      unfold searchWalk
      rw [hc]
      exact ih _ _ _

/-- After `insertWalk`, every nonempty take-front of the walked list is
findable from the same start. -/
theorem insertWalk_searchWalk_take (t mj : String) :
    ∀ (vs : List Int) (cur : Option Nat) (depth : Nat) (db : TreeDB) (k : Nat),
      1 ≤ k → k ≤ vs.length →
      (searchWalk (insertWalk t mj vs cur depth db).1 (vs.take k) cur).isSome := by
  intro vs
  induction vs with
  | nil => intro cur depth db k h1 h2; simp at h2; omega
  | cons v vs ih =>
    intro cur depth db k h1 h2
    obtain ⟨k', rfl⟩ : ∃ k', k = k' + 1 := ⟨k - 1, by omega⟩
    unfold insertWalk
    cases hf : findChild db cur v with
    | some c =>
      have hc := findChild_mono (insertWalk_rows_pre t mj vs (some c) (depth + 1) db) hf
      simp only [List.take_succ_cons]
      unfold searchWalk
      rw [hc]
      cases k' with
      | zero => simp [searchWalk]
      | succ k'' => exact ih _ _ _ _ (by omega) (by simpa using h2)
    | none =>
      set db₀ : TreeDB := ⟨db.rows ++ [(db.next_id, ⟨cur, v, depth + 1, t, mj⟩)], db.next_id + 1⟩
      have h₀ : findChild db₀ cur v = some db.next_id :=
        findChild_append_new hf _ _ _ rfl rfl
      have hc := findChild_mono (insertWalk_rows_pre t mj vs (some db.next_id) (depth + 1) db₀) h₀
      simp only [List.take_succ_cons]
      unfold searchWalk
      rw [hc]
      cases k' with
      | zero => simp [searchWalk]
      | succ k'' => exact ih _ _ _ _ (by omega) (by simpa using h2)

/-! ## C9: empty-input policy -/

/-- C9: for the empty vertex list, `search_simplex` returns `none`,
`locate_cofaces` returns the empty list (for every `max_extra_depth`), and
`insert_simplex` fails with the invalid-argument error, creating no node. -/
theorem empty_input_policy (db : TreeDB) (t mj : String) (mx : Option Nat) :
    search_simplex db [] = none ∧
    locate_cofaces db [] mx = [] ∧
    insert_simplex db [] t mj = .error "Cannot insert empty simplex" := by
  refine ⟨rfl, rfl, rfl⟩

/-! ## C7: duplicate-insert idempotence -/

theorem searchWalk_insertWalk_noop (t mj : String) :
    ∀ (vs : List Int) (cur : Option Nat) (depth : Nat) (db : TreeDB) (n : Nat),
      searchWalk db vs cur = some n →
      insertWalk t mj vs cur depth db = (db, some n) := by
  intro vs
  induction vs with
  | nil =>
    intro cur depth db n h
    unfold searchWalk at h
    rw [h]; rfl
  | cons v vs ih =>
    intro cur depth db n h
    unfold searchWalk at h
    cases hf : findChild db cur v with
    | none => rw [hf] at h; exact absurd h (by simp)
    | some c =>
      rw [hf] at h
      unfold insertWalk
      rw [hf]
      exact ih _ _ _ _ h

/-- C7: when the full path for `sorted(vs)` already exists,
`insert_simplex` returns the existing terminal node id and leaves the whole
table — in particular every node's `type` and `meta_data` — unchanged. -/
theorem duplicate_insert_idempotent (db : TreeDB) (vs : List Int) (t mj : String) (n : Nat)
    (h : search_simplex db vs = some n) :
    insert_simplex db vs t mj = .ok (db, n) := by
  unfold search_simplex at h
  by_cases hvs : vs = []
  · rw [if_pos hvs] at h; exact absurd h (by simp)
  · rw [if_neg hvs] at h
    unfold insert_simplex
    rw [if_neg hvs, searchWalk_insertWalk_noop t mj _ _ 0 _ _ h]

/-- Witness for C7 on a concrete table: after inserting `[1,2,3]`, a second
insert of the same simplex returns the existing terminal node 3 and changes
nothing. -/
theorem duplicate_insert_idempotent_witness :
    search_simplex (execInserts [⟨[1, 2, 3], "t", "m"⟩]) [1, 2, 3] = some 3 ∧
    insert_simplex (execInserts [⟨[1, 2, 3], "t", "m"⟩]) [1, 2, 3] "x" "y" =
      .ok (execInserts [⟨[1, 2, 3], "t", "m"⟩], 3) :=
  ⟨by decide, duplicate_insert_idempotent _ _ "x" "y" 3 (by decide)⟩

/-! ## C10: inserting a simplex materializes all its ancestor faces -/

/-- C10: after a successful `insert_simplex(vs, …)`, every non-empty front
of `sorted(vs)` is found by `search_simplex` in the resulting table. -/
theorem insert_materializes_prefixes (db : TreeDB) (vs : List Int) (t mj : String)
    (db' : TreeDB) (n : Nat) (h : insert_simplex db vs t mj = .ok (db', n)) :
    ∀ p : List Int, p ≠ [] → p <+: sortInts vs → (search_simplex db' p).isSome := by
  intro p hp hpre
  unfold insert_simplex at h
  by_cases hvs : vs = []
  · rw [if_pos hvs] at h; exact absurd h (by simp)
  rw [if_neg hvs] at h
  have hsorted : List.Sorted (· ≤ ·) (sortInts vs) := List.sorted_insertionSort _ _
  have hps : List.Sorted (· ≤ ·) p := hsorted.sublist hpre.sublist
  have hsp : sortInts p = p := hps.insertionSort_eq
  unfold search_simplex
  rw [if_neg hp, hsp]
  have htake : p = (sortInts vs).take p.length := List.prefix_iff_eq_take.mp hpre
  have hlen : p.length ≤ (sortInts vs).length := hpre.length_le
  have hone : 1 ≤ p.length := by
    cases p with
    | nil => exact absurd rfl hp
    | cons a l => simp
  have := insertWalk_searchWalk_take t mj (sortInts vs) none 0 db p.length hone hlen
  cases hw : insertWalk t mj (sortInts vs) none 0 db with
  | mk dbw res =>
    rw [hw] at h this
    cases res with
    | none => exact absurd h (by simp)
    | some nid =>
      have hdb : db' = dbw := by
        simp only at h
        exact (by injection h with h1; injection h1 with h2 h3; exact h2.symm)
      rw [hdb, htake]
      exact this

/-- Witness for C10: inserting `[3,1,2]` makes the fronts `[1]`, `[1,2]`
and `[1,2,3]` of the sorted list all searchable. -/
theorem insert_materializes_prefixes_witness :
    insert_simplex TreeDB.empty [3, 1, 2] "t" "m" = .ok (execInserts [⟨[3, 1, 2], "t", "m"⟩], 3) ∧
    (search_simplex (execInserts [⟨[3, 1, 2], "t", "m"⟩]) [1, 2]).isSome := by
  refine ⟨rfl, ?_⟩
  exact insert_materializes_prefixes TreeDB.empty [3, 1, 2] "t" "m" _ 3 rfl
    [1, 2] (by decide) (by decide)

/-! ## Canonicalization: lowering commutes with stripping -/

theorem isWhitespace_iff_toNat (c : Char) : c.isWhitespace = true ↔
    (c.toNat = 32 ∨ c.toNat = 9 ∨ c.toNat = 13 ∨ c.toNat = 10) := by
  unfold Char.isWhitespace
  constructor
  · intro h
    simp only [Bool.or_eq_true, decide_eq_true_eq] at h
    rcases h with ((h | h) | h) | h <;> subst h <;> simp [Char.toNat]
  · intro h
    have : c = ' ' ∨ c = '\t' ∨ c = '\x0d' ∨ c = '\n' := by
      rcases h with h | h | h | h
      · exact Or.inl (Char.eq_of_val_eq (UInt32.ext h))
      · exact Or.inr (Or.inl (Char.eq_of_val_eq (UInt32.ext h)))
      · exact Or.inr (Or.inr (Or.inl (Char.eq_of_val_eq (UInt32.ext h))))
      · exact Or.inr (Or.inr (Or.inr (Char.eq_of_val_eq (UInt32.ext h))))
    rcases this with h | h | h | h <;> subst h <;> decide

theorem isWhitespace_toLower (c : Char) :
    (Char.toLower c).isWhitespace = c.isWhitespace := by
  simp only [Char.toLower]
  split
  · rename_i h
    have h65 : 65 ≤ c.toNat := h.1
    have h90 : c.toNat ≤ 90 := h.2
    have hval : (c.toNat + 32).isValidChar := by left; omega
    have hofs : (Char.ofNat (c.toNat + 32)).toNat = c.toNat + 32 := by
      simp [Char.ofNat, hval]
      rfl
    have l : (Char.ofNat (c.toNat + 32)).isWhitespace = false := by
      by_contra hw
      rw [Bool.not_eq_false] at hw
      have := (isWhitespace_iff_toNat _).mp hw
      rw [hofs] at this
      omega
    have r : c.isWhitespace = false := by
      by_contra hw
      rw [Bool.not_eq_false] at hw
      have := (isWhitespace_iff_toNat _).mp hw
      omega
    rw [l, r]
  · rfl

theorem whitespace_comp_toLower :
    (Char.isWhitespace ∘ Char.toLower) = Char.isWhitespace :=
  funext isWhitespace_toLower

theorem stripChars_map_toLower (l : List Char) :
    stripChars (l.map Char.toLower) = (stripChars l).map Char.toLower := by
  unfold stripChars
  rw [List.dropWhile_map, whitespace_comp_toLower, ← List.map_reverse,
    List.dropWhile_map, whitespace_comp_toLower, ← List.map_reverse]

/-- The canonical key computed by the code, `lower` then `strip`, equals the
specification's `case-fold(trim(content))` composition. -/
theorem canonicalKey_eq_lower_of_strip (s : String) :
    canonicalKey s = pyLower (pyStrip s) :=
  congrArg String.mk (stripChars_map_toLower s.data)

theorem update_vertex_metadata_cache {E : Type} {st st' : StoreState E} {vid : Nat} {ts : String}
    (h : update_vertex_metadata st vid ts = some st') : st'.cache = st.cache := by
  unfold update_vertex_metadata at h
  cases hr : st.vertices.lookup vid with
  | none => rw [hr] at h; exact absurd h (by simp)
  | some row =>
    rw [hr] at h
    simp only [Option.some.injEq] at h
    rw [← h]

/-! ## C4: canonicalization returns the same vertex id -/

/-- C4: two `get_or_create_vertex` calls on the same store whose contents
have equal case-folded, whitespace-trimmed forms return the same id. -/
theorem canonicalization_same_id {E : Type} (embed : String → E) (st : StoreState E)
    (s s' ts ts' : String) (hkey : pyLower (pyStrip s) = pyLower (pyStrip s'))
    {st₁ st₂ : StoreState E} {v₁ v₂ : Nat}
    (h₁ : get_or_create_vertex embed st s ts = some (st₁, v₁))
    (h₂ : get_or_create_vertex embed st₁ s' ts' = some (st₂, v₂)) :
    v₁ = v₂ := by
  have hk : canonicalKey s' = canonicalKey s := by
    rw [canonicalKey_eq_lower_of_strip, canonicalKey_eq_lower_of_strip, hkey]
  unfold get_or_create_vertex at h₁ h₂
  rw [hk] at h₂
  cases hc : st.cache.lookup (canonicalKey s) with
  | some vid =>
    simp only [hc] at h₁
    cases hu : update_vertex_metadata st vid ts with
    | none =>
      simp only [hu] at h₁
      exact absurd h₁ (by simp)
    | some stu =>
      simp only [hu, Option.some.injEq, Prod.mk.injEq] at h₁
      obtain ⟨hst, hv⟩ := h₁
      rw [← hst, update_vertex_metadata_cache hu] at h₂
      simp only [hc] at h₂
      cases hu' : update_vertex_metadata stu vid ts' with
      | none =>
        simp only [hu'] at h₂
        exact absurd h₂ (by simp)
      | some stu' =>
        simp only [hu', Option.some.injEq, Prod.mk.injEq] at h₂
        rw [← hv, ← h₂.2]
  | none =>
    simp only [hc, Option.some.injEq, Prod.mk.injEq] at h₁
    obtain ⟨hst, hv⟩ := h₁
    have hcache : st₁.cache.lookup (canonicalKey s) = some v₁ := by
      rw [← hst, ← hv]
      simp [List.lookup]
    simp only [hcache] at h₂
    cases hu' : update_vertex_metadata st₁ v₁ ts' with
    | none =>
      simp only [hu'] at h₂
      exact absurd h₂ (by simp)
    | some stu' =>
      simp only [hu', Option.some.injEq, Prod.mk.injEq] at h₂
      rw [← h₂.2]

/-- Witness for C4: `"Paris"` and `" paris "` get the same vertex id. -/
theorem canonicalization_same_id_witness :
    pyLower (pyStrip "Paris") = pyLower (pyStrip " paris ") ∧ (1 : Nat) = 1 :=
  ⟨by decide,
    canonicalization_same_id (fun _ => (0 : Nat)) (StoreState.empty Nat)
      "Paris" " paris " "t1" "t2" (by decide) rfl rfl⟩

/-! ## C8: cache-hit frame effect -/

theorem lookup_map_keyed {E : Type} (l : List (Nat × VertexRow E)) (vid : Nat)
    (f : Nat × VertexRow E → VertexRow E) :
    (l.map fun r => if r.1 == vid then (r.1, f r) else r).lookup vid =
      (l.lookup vid).map fun row => f (vid, row) := by
  induction l with
  | nil => rfl
  | cons hd tl ih =>
    obtain ⟨k, a⟩ := hd
    by_cases h : k = vid
    · subst h
      simp only [List.map]
      rw [if_pos (beq_self_eq_true k)]
      rw [List.lookup, List.lookup]
      simp only [beq_self_eq_true]
      rfl
    · have h' : (vid == k) = false := by simp [Ne.symm h]
      have h'' : (k == vid) = false := by simp [h]
      simp only [List.map, h'', Bool.false_eq_true, if_false]
      rw [List.lookup, List.lookup, h', ih]

/-- C8: a cache hit in `get_or_create_vertex` returns the cached id, bumps
`frequency` by exactly one and sets `last_seen` to the given timestamp,
leaving the stored `content` (the first observed casing), the `embedding`
and `first_seen` unchanged.  The cache itself is untouched. -/
theorem cache_hit_frame_effect {E : Type} (embed : String → E) (st : StoreState E)
    (content ts : String) (vid : Nat) (row : VertexRow E)
    (hc : st.cache.lookup (canonicalKey content) = some vid)
    (hr : st.vertices.lookup vid = some row) :
    ∃ st', get_or_create_vertex embed st content ts = some (st', vid) ∧
      st'.vertices.lookup vid =
        some ⟨row.content, row.embedding,
          ⟨row.meta_data.first_seen, ts, row.meta_data.frequency + 1⟩⟩ ∧
      st'.cache = st.cache := by
  simp only [get_or_create_vertex, hc, update_vertex_metadata, hr]
  refine ⟨_, rfl, ?_, rfl⟩
  rw [lookup_map_keyed, hr]
  rfl

/-- Witness for C8 on a one-vertex store. -/
theorem cache_hit_frame_effect_witness :
    (([("paris", 1)] : List (String × Nat)).lookup (canonicalKey "PARIS") = some 1) ∧
    ∃ st' : StoreState Nat,
      get_or_create_vertex (fun _ => (0 : Nat))
          ⟨[(1, ⟨"Paris", 7, ⟨"t1", "t1", 1⟩⟩)], 2, [("paris", 1)]⟩ "PARIS" "t2" =
        some (st', 1) ∧
      st'.vertices.lookup 1 = some ⟨"Paris", 7, ⟨"t1", "t2", 2⟩⟩ ∧
      st'.cache = [("paris", 1)] :=
  ⟨by decide,
    cache_hit_frame_effect (fun _ => (0 : Nat))
      ⟨[(1, ⟨"Paris", 7, ⟨"t1", "t1", 1⟩⟩)], 2, [("paris", 1)]⟩
      "PARIS" "t2" 1 ⟨"Paris", 7, ⟨"t1", "t1", 1⟩⟩ (by decide) (by decide)⟩

/-! ## C5: out-of-order temporal entries -/

theorem updateLocationSimplex_window (b : Builder) (db : TreeDB) (loc : String) :
    (updateLocationSimplex b db loc).1.window_start = b.window_start ∧
    (updateLocationSimplex b db loc).1.window_end = b.window_end ∧
    (updateLocationSimplex b db loc).1.temporal_vertices = b.temporal_vertices := by
  unfold updateLocationSimplex
  split
  · exact ⟨rfl, rfl, rfl⟩
  · split
    · exact ⟨rfl, rfl, rfl⟩
    · exact ⟨rfl, rfl, rfl⟩

theorem locationStep_window (b : Builder) (db : TreeDB) (vids : List Int) (ts : Int)
    (loc : Option String) :
    (locationStep b db vids ts loc).1.window_start = b.window_start ∧
    (locationStep b db vids ts loc).1.window_end = b.window_end ∧
    (locationStep b db vids ts loc).1.temporal_vertices = b.temporal_vertices ∧
    (loc = none → locationStep b db vids ts loc = (b, db)) := by
  cases loc with
  | none => exact ⟨rfl, rfl, rfl, fun _ => rfl⟩
  | some l =>
    by_cases hl : l = ""
    · refine ⟨?_, ?_, ?_, fun h => by cases h⟩ <;>
      · simp only [locationStep, if_pos hl]
    · refine ⟨?_, ?_, ?_, fun h => by cases h⟩ <;>
      · simp only [locationStep, if_neg hl]
        obtain ⟨h1, h2, h3⟩ := updateLocationSimplex_window
          { b with
            location_vertices :=
              dictSet b.location_vertices l (dictGetD b.location_vertices l ∅ ∪ vids.toFinset),
            location_timestamps :=
              dictSet b.location_timestamps l (dictGetD b.location_timestamps l [] ++ [ts]) }
          db l
        first
        | exact h1
        | exact h2
        | exact h3

/-- C5 (amended): an entry arriving while a window is open with
`ts < window_end` is treated as within-window — the window is not flushed,
its start is unchanged and its vertex set absorbs the new vertices — but
`window_end` is set to `ts` itself, not to the later of the two bounds, so
`window_end` decreases. -/
theorem out_of_order_entry_extends_window (b : Builder) (db : TreeDB) (vids : List Int)
    (ts we : Int) (loc : Option String) (hne : vids ≠ [])
    (hws : b.window_start.isSome) (he : b.window_end = some we)
    (hlt : ts < we) (hW : 0 ≤ b.window_minutes) :
    (add_entry b db vids ts loc).1.window_start = b.window_start ∧
    (add_entry b db vids ts loc).1.window_end = some ts ∧
    (add_entry b db vids ts loc).1.temporal_vertices =
      b.temporal_vertices ∪ vids.toFinset ∧
    (loc = none → (add_entry b db vids ts loc).2 = db) := by
  obtain ⟨ws, hws'⟩ := Option.isSome_iff_exists.mp hws
  have hcond : ts - we ≤ 60 * b.window_minutes := by
    have h60 : (0 : Int) ≤ 60 * b.window_minutes := by positivity
    omega
  have htemp : temporalStep b db vids ts =
      ({ b with temporal_vertices := b.temporal_vertices ∪ vids.toFinset,
                window_end := some ts }, db) := by
    unfold temporalStep
    rw [hws', he]
    simp only [if_pos hcond]
  unfold add_entry
  rw [if_neg hne, htemp]
  obtain ⟨h1, h2, h3, h4⟩ := locationStep_window
    { b with temporal_vertices := b.temporal_vertices ∪ vids.toFinset,
             window_end := some ts } db vids ts loc
  refine ⟨by rw [h1], by rw [h2], by rw [h3], fun h => ?_⟩
  rw [h4 h]

/-- C5 counterexample: with the window open as `[0, 6000]` and `W = 30`
minutes, an entry at `ts = 3000 < 6000` sets `window_end` to `3000`, not to
`max 6000 3000 = 6000` as the claim states. -/
theorem out_of_order_entry_window_end_decreases :
    (add_entry ⟨30, {1}, some 0, some 6000, [], [], []⟩ TreeDB.empty
        [2] 3000 none).1.window_end = some 3000 ∧
    some (3000 : Int) ≠ some (max (6000 : Int) 3000) := by
  exact ⟨rfl, by decide⟩

/-- Witness for C5 (amended), on the same concrete builder state. -/
theorem out_of_order_entry_extends_window_witness :
    ([2] ≠ ([] : List Int)) ∧
    (add_entry ⟨30, {1}, some 0, some 6000, [], [], []⟩ TreeDB.empty
        [2] 3000 none).1.window_end = some 3000 :=
  ⟨by decide,
    (out_of_order_entry_extends_window ⟨30, {1}, some 0, some 6000, [], [], []⟩
      TreeDB.empty [2] 3000 6000 none (by decide) rfl rfl (by decide) (by decide)).2.1⟩

/-! ## C2: gap detection on a lone triangle -/

/-- C2 counterexample: after inserting only `[1,2,3]`, the face `[1,2]` is
not in the returned gap list — it exists in the tree as the path prefix
node, so `search_simplex` finds it. -/
theorem gap_detection_triangle_claim_false :
    [1, 2] ∉ detect_gaps (execInserts [⟨[1, 2, 3], "temporal", "m"⟩]) [[1, 2, 3]] ∧
    search_simplex (execInserts [⟨[1, 2, 3], "temporal", "m"⟩]) [1, 2] = some 2 := by
  exact ⟨by decide, by decide⟩

/-- C2 (amended): starting from an empty tree, after inserting `[1,2,3]`
and nothing else, `detect_gaps([[1,2,3]])` returns exactly the faces
`[1,3]` and `[2,3]` (the faces `[1,2]` and `[1,2,3]` exist in the tree). -/
theorem gap_detection_triangle :
    detect_gaps (execInserts [⟨[1, 2, 3], "temporal", "m"⟩]) [[1, 2, 3]] =
      [[1, 3], [2, 3]] := by
  decide

/-! ## Counterexamples to the literal C1, C3 and C6 statements -/

/-- C1 counterexample: `[1,2]` is a simplex of the tree and `[1]` a
non-empty subset of it, but `locate_cofaces([1])` with the implementation's
default `max_extra_depth = 0` returns only `[[1]]`, missing `[1,2]`. -/
theorem coface_default_args_misses_coface :
    (2, (⟨some 1, 2, 2, "t", "m"⟩ : SNode)) ∈ (execInserts [⟨[1, 2], "t", "m"⟩]).rows ∧
    collectPath (execInserts [⟨[1, 2], "t", "m"⟩]) 2 = [1, 2] ∧
    locate_cofaces (execInserts [⟨[1, 2], "t", "m"⟩]) [1] (some 0) = [[1]] ∧
    [1, 2] ∉ locate_cofaces (execInserts [⟨[1, 2], "t", "m"⟩]) [1] (some 0) := by
  refine ⟨by decide, by decide, by decide, by decide⟩

/-- C3 counterexample: after the single call `insert_simplex([1,2], …)`,
`search_simplex([1])` returns a node id even though `insert_simplex([1], …)`
was never called. -/
theorem search_without_matching_insert :
    search_simplex (execInserts [⟨[1, 2], "t", "m"⟩]) [1] = some 1 ∧
    ∀ c ∈ [(⟨[1, 2], "t", "m"⟩ : InsertCall)], c.vertex_ids ≠ [1] := by
  exact ⟨by decide, by decide⟩

/-- C6 counterexample: `insert_simplex([1,1], …)` on an empty tree creates
a node whose root-to-self path is `[1,1]`, which is not strictly
increasing. -/
theorem duplicate_insert_breaks_sorted_path :
    (2, (⟨some 1, 1, 2, "t", "m"⟩ : SNode)) ∈ (execInserts [⟨[1, 1], "t", "m"⟩]).rows ∧
    collectPath (execInserts [⟨[1, 1], "t", "m"⟩]) 2 = [1, 1] ∧
    ¬ List.Chain' (· < ·) (collectPath (execInserts [⟨[1, 1], "t", "m"⟩]) 2) := by
  have hp : collectPath (execInserts [⟨[1, 1], "t", "m"⟩]) 2 = [1, 1] := by decide
  refine ⟨by decide, hp, ?_⟩
  rw [hp, List.chain'_cons]
  rintro ⟨h, -⟩
  exact lt_irrefl _ h

/-! ## Well-formedness machinery: rowids, lookups, and path computation -/

theorem WF0.mem_bounds {db : TreeDB} (wf : WF0 db) {i : Nat} {nd : SNode}
    (h : (i, nd) ∈ db.rows) : 1 ≤ i ∧ i ≤ db.rows.length := by
  have hm : i ∈ db.rows.map Prod.fst := List.mem_map_of_mem Prod.fst h
  rw [wf.ids] at hm
  have := List.mem_range'_1.mp hm
  omega

theorem WF0.keys_nodup {db : TreeDB} (wf : WF0 db) : (db.rows.map Prod.fst).Nodup := by
  rw [wf.ids]; exact List.nodup_range' _ _

theorem WF0.keys_complete {db : TreeDB} (wf : WF0 db) {j : Nat} (h1 : 1 ≤ j)
    (h2 : j ≤ db.rows.length) : ∃ nd, (j, nd) ∈ db.rows := by
  have hm : j ∈ db.rows.map Prod.fst := by
    rw [wf.ids]; exact List.mem_range'_1.mpr ⟨h1, by omega⟩
  obtain ⟨⟨k, a⟩, hr, hfst⟩ := List.mem_map.mp hm
  simp only at hfst
  subst hfst
  exact ⟨a, hr⟩

theorem lookup_of_mem_nodup : ∀ {l : List (Nat × SNode)}, (l.map Prod.fst).Nodup →
    ∀ {i : Nat} {nd : SNode}, (i, nd) ∈ l → l.lookup i = some nd := by
  intro l
  induction l with
  | nil => intro _ i nd h; cases h
  | cons hd tl ih =>
    intro hnd i nd h
    obtain ⟨k, a⟩ := hd
    rw [List.map_cons, List.nodup_cons] at hnd
    rcases List.mem_cons.mp h with heq | hmem
    · injection heq with h1 h2
      subst h1; subst h2
      simp [List.lookup]
    · have hik : i ≠ k := by
        intro he
        have hm : i ∈ tl.map Prod.fst := List.mem_map_of_mem Prod.fst hmem
        rw [he] at hm
        exact hnd.1 hm
      have hbeq : (i == k) = false := beq_eq_false_iff_ne.mpr hik
      rw [List.lookup, hbeq]
      exact ih hnd.2 hmem

theorem mem_of_lookup_eq_some : ∀ {l : List (Nat × SNode)} {i : Nat} {nd : SNode},
    l.lookup i = some nd → (i, nd) ∈ l := by
  intro l
  induction l with
  | nil => intro i nd h; cases h
  | cons hd tl ih =>
    intro i nd h
    obtain ⟨k, a⟩ := hd
    rw [List.lookup] at h
    cases hik : (i == k) with
    | true =>
      rw [hik] at h
      simp only [Option.some.injEq] at h
      have : i = k := eq_of_beq hik
      subst this; subst h
      exact List.mem_cons_self _ _
    | false =>
      rw [hik] at h
      exact List.mem_cons_of_mem _ (ih h)

theorem lookup_none_of_zero {db : TreeDB} (wf : WF0 db) : db.rows.lookup 0 = none := by
  cases hl : db.rows.lookup 0 with
  | none => rfl
  | some nd =>
    have := wf.mem_bounds (mem_of_lookup_eq_some hl)
    omega

theorem collectPathAcc_none (db : TreeDB) (f : Nat) : collectPathAcc db f none = [] := by
  cases f <;> rfl

theorem collectPathAcc_fuel {db : TreeDB} (wf : WF0 db) :
    ∀ i f f' : Nat, i ≤ f → i ≤ f' →
      collectPathAcc db f (some i) = collectPathAcc db f' (some i) := by
  intro i
  induction i using Nat.strong_induction_on with
  | _ i ih =>
    intro f f' hf hf'
    match f, f' with
    | 0, 0 => rfl
    | 0, g' + 1 =>
      have hi : i = 0 := by omega
      subst hi
      simp only [collectPathAcc, lookup_none_of_zero wf]
    | g + 1, 0 =>
      have hi : i = 0 := by omega
      subst hi
      simp only [collectPathAcc, lookup_none_of_zero wf]
    | g + 1, g' + 1 =>
      cases hl : db.rows.lookup i with
      | none => simp only [collectPathAcc, hl]
      | some nd =>
        simp only [collectPathAcc, hl]
        cases hp : nd.parent_id with
        | none => rw [collectPathAcc_none, collectPathAcc_none]
        | some p =>
          have hpb := wf.par _ (mem_of_lookup_eq_some hl) p hp
          congr 1
          exact ih p hpb.2 g g' (by omega) (by omega)

theorem collectPathAcc_lookup {db : TreeDB} (wf : WF0 db) {i : Nat} {nd : SNode}
    (hl : db.rows.lookup i = some nd) (f : Nat) (hf : i ≤ f) :
    collectPathAcc db f (some i) =
      nd.vertex_id :: collectPathAcc db db.rows.length nd.parent_id := by
  have hb := wf.mem_bounds (mem_of_lookup_eq_some hl)
  obtain ⟨g, rfl⟩ : ∃ g, f = g + 1 := ⟨f - 1, by omega⟩
  simp only [collectPathAcc, hl]
  cases hp : nd.parent_id with
  | none => rw [collectPathAcc_none, collectPathAcc_none]
  | some p =>
    have hpb := wf.par _ (mem_of_lookup_eq_some hl) p hp
    rw [collectPathAcc_fuel wf p g db.rows.length (by omega) (by omega)]

/-- The path of a row is the path of its parent extended by its own vertex:
the fundamental recurrence of `_collect_path`. -/
theorem collectPath_cons {db : TreeDB} (wf : WF0 db) {i : Nat} {nd : SNode}
    (h : (i, nd) ∈ db.rows) :
    collectPath db i = pathOfOpt db nd.parent_id ++ [nd.vertex_id] := by
  have hl := lookup_of_mem_nodup wf.keys_nodup h
  have hb := wf.mem_bounds h
  unfold collectPath
  rw [collectPathAcc_lookup wf hl db.rows.length (by omega), List.reverse_cons]
  congr 1
  cases hp : nd.parent_id with
  | none => rw [collectPathAcc_none]; rfl
  | some p => rfl

theorem lookup_append_some {l₁ l₂ : List (Nat × SNode)} {i : Nat} {nd : SNode}
    (h : l₁.lookup i = some nd) : (l₁ ++ l₂).lookup i = some nd := by
  rw [List.lookup_append, h]; rfl

theorem collectPathAcc_append {db : TreeDB} (wf : WF0 db) (ext : List (Nat × SNode)) (nx : Nat) :
    ∀ (f i : Nat) (nd : SNode), db.rows.lookup i = some nd →
      collectPathAcc ⟨db.rows ++ ext, nx⟩ f (some i) = collectPathAcc db f (some i) := by
  intro f
  induction f with
  | zero => intro i nd _; rfl
  | succ g ih =>
    intro i nd hl
    have hl' : (db.rows ++ ext).lookup i = some nd := lookup_append_some hl
    simp only [collectPathAcc, hl, hl']
    congr 1
    cases hp : nd.parent_id with
    | none => rw [collectPathAcc_none, collectPathAcc_none]
    | some p =>
      have hmem := mem_of_lookup_eq_some hl
      have hpb := wf.par _ hmem p hp
      have hib := wf.mem_bounds hmem
      obtain ⟨ndp, hndp⟩ := wf.keys_complete hpb.1 (by omega)
      exact ih p ndp (lookup_of_mem_nodup wf.keys_nodup hndp)

/-- Paths of existing rows are unchanged when rows are appended. -/
theorem collectPath_append {db db' : TreeDB} (wf : WF0 db) (wf' : WF0 db')
    (hrows : db.rows <+: db'.rows) {i : Nat} {nd : SNode}
    (h : (i, nd) ∈ db.rows) : collectPath db' i = collectPath db i := by
  obtain ⟨rows', nx'⟩ := db'
  obtain ⟨ext, hext⟩ := hrows
  simp only at hext
  subst hext
  have hl := lookup_of_mem_nodup wf.keys_nodup h
  have hb := wf.mem_bounds h
  have hlen : db.rows.length ≤ (db.rows ++ ext).length := by simp
  unfold collectPath
  simp only
  rw [collectPathAcc_append wf ext nx' (db.rows ++ ext).length i nd hl]
  rw [collectPathAcc_fuel wf i (db.rows ++ ext).length db.rows.length (by omega) (by omega)]

theorem pathOfOpt_append {db db' : TreeDB} (wf : WF0 db) (wf' : WF0 db')
    (hrows : db.rows <+: db'.rows) {cur : Option Nat} (hok : parentOk db cur) :
    pathOfOpt db' cur = pathOfOpt db cur := by
  cases cur with
  | none => rfl
  | some p =>
    obtain ⟨nd, hnd⟩ := hok
    exact collectPath_append wf wf' hrows hnd

theorem findChild_spec {db : TreeDB} {cur : Option Nat} {v : Int} {c : Nat}
    (h : findChild db cur v = some c) :
    ∃ nd, (c, nd) ∈ db.rows ∧ nd.parent_id = cur ∧ nd.vertex_id = v := by
  unfold findChild at h
  obtain ⟨r, hr, hfst⟩ := Option.map_eq_some'.mp h
  obtain ⟨k, a⟩ := r
  simp only at hfst
  subst hfst
  have hp := List.find?_some hr
  have hmem := List.mem_of_find?_eq_some hr
  rw [Bool.and_eq_true] at hp
  exact ⟨a, hmem, eq_of_beq hp.1, eq_of_beq hp.2⟩

/-- Appending a fresh row (child of an existing row, with the correct
depth) preserves well-formedness, and the new row's path extends its
parent's path by the new vertex. -/
theorem WF_append_row {db : TreeDB} (hwf : WF db) (cur : Option Nat) (v : Int) (depth : Nat)
    (t mj : String) (hok : parentOk db cur) (hdep : depth = (pathOfOpt db cur).length) :
    WF ⟨db.rows ++ [(db.next_id, ⟨cur, v, depth + 1, t, mj⟩)], db.next_id + 1⟩ ∧
    collectPath ⟨db.rows ++ [(db.next_id, ⟨cur, v, depth + 1, t, mj⟩)], db.next_id + 1⟩
      db.next_id = pathOfOpt db cur ++ [v] := by
  set nrow : SNode := ⟨cur, v, depth + 1, t, mj⟩ with hnrow
  set db₀ : TreeDB := ⟨db.rows ++ [(db.next_id, nrow)], db.next_id + 1⟩ with hdb₀
  have hids : db₀.rows.map Prod.fst = List.range' 1 db₀.rows.length := by
    show (db.rows ++ [(db.next_id, nrow)]).map Prod.fst =
      List.range' 1 (db.rows ++ [(db.next_id, nrow)]).length
    rw [List.map_append, hwf.toWF0.ids, List.length_append]
    simp only [List.map_cons, List.map_nil, List.length_cons, List.length_nil]
    rw [List.range'_concat]
    simp only [List.length_append, List.length_cons, List.length_nil, hwf.toWF0.nxt]
    congr 2
    omega
  have hnxt : db₀.next_id = db₀.rows.length + 1 := by
    show db.next_id + 1 = (db.rows ++ [(db.next_id, nrow)]).length + 1
    simp [hwf.toWF0.nxt]
  have hpar : ∀ r ∈ db₀.rows, ∀ p, r.2.parent_id = some p → 1 ≤ p ∧ p < r.1 := by
    intro r hr p hp
    rcases List.mem_append.mp hr with hold | hnew
    · exact hwf.toWF0.par r hold p hp
    · simp only [List.mem_singleton] at hnew
      subst hnew
      simp only [hnrow] at hp
      rw [hp] at hok
      obtain ⟨ndp, hndp⟩ := hok
      have hb := hwf.toWF0.mem_bounds hndp
      have hn := hwf.toWF0.nxt
      simp only
      omega
  have hwf0₀ : WF0 db₀ := ⟨hids, hnxt, hpar⟩
  have hpre : db.rows <+: db₀.rows := ⟨[(db.next_id, nrow)], rfl⟩
  have hmem₀ : (db.next_id, nrow) ∈ db₀.rows := by
    simp [hdb₀]
  have hpath₀ : collectPath db₀ db.next_id = pathOfOpt db cur ++ [v] := by
    rw [collectPath_cons hwf0₀ hmem₀]
    have h1 : nrow.parent_id = cur := rfl
    have h2 : nrow.vertex_id = v := rfl
    rw [h1, h2, pathOfOpt_append hwf.toWF0 hwf0₀ hpre hok]
  have hdep₀ : ∀ r ∈ db₀.rows, r.2.depth = (collectPath db₀ r.1).length := by
    intro r hr
    rcases List.mem_append.mp hr with hold | hnew
    · obtain ⟨i, nd⟩ := r
      rw [collectPath_append hwf.toWF0 hwf0₀ hpre hold]
      exact hwf.dep _ hold
    · simp only [List.mem_singleton] at hnew
      subst hnew
      show nrow.depth = (collectPath db₀ db.next_id).length
      rw [hpath₀]
      have h3 : nrow.depth = depth + 1 := rfl
      rw [h3, hdep]
      simp
  exact ⟨⟨hwf0₀, hdep₀⟩, hpath₀⟩

/-- Master invariant of the `insert_simplex` walk: well-formedness is
preserved, the returned node exists and its path is the start path extended
by the walked list, and every row of the result is either an old row or a
new row whose path is the start path extended by a nonempty front of the
walked list. -/
theorem insertWalk_wf (t mj : String) :
    ∀ (vs : List Int) (cur : Option Nat) (depth : Nat) (db : TreeDB),
      WF db → parentOk db cur → depth = (pathOfOpt db cur).length →
      WF (insertWalk t mj vs cur depth db).1 ∧
      parentOk (insertWalk t mj vs cur depth db).1 (insertWalk t mj vs cur depth db).2 ∧
      pathOfOpt (insertWalk t mj vs cur depth db).1 (insertWalk t mj vs cur depth db).2 =
        pathOfOpt db cur ++ vs ∧
      (∀ i nd, (i, nd) ∈ (insertWalk t mj vs cur depth db).1.rows →
        (i, nd) ∈ db.rows ∨
        ∃ j, 1 ≤ j ∧ j ≤ vs.length ∧
          collectPath (insertWalk t mj vs cur depth db).1 i =
            pathOfOpt db cur ++ vs.take j) := by
  intro vs
  induction vs with
  | nil =>
    intro cur depth db hwf hok hdep
    exact ⟨hwf, hok, by simp [insertWalk], fun i nd h => Or.inl h⟩
  | cons v vs ih =>
    intro cur depth db hwf hok hdep
    cases hf : findChild db cur v with
    | some c =>
      obtain ⟨ndc, hndc, hpc, hvc⟩ := findChild_spec hf
      have hokc : parentOk db (some c) := ⟨ndc, hndc⟩
      have hpathc : collectPath db c = pathOfOpt db cur ++ [v] := by
        rw [collectPath_cons hwf.toWF0 hndc, hpc, hvc]
      have hdepc : depth + 1 = (pathOfOpt db (some c)).length := by
        show depth + 1 = (collectPath db c).length
        rw [hpathc, List.length_append, ← hdep]
        rfl
      obtain ⟨h1, h2, h3, h4⟩ := ih (some c) (depth + 1) db hwf hokc hdepc
      have heq : insertWalk t mj (v :: vs) cur depth db =
          insertWalk t mj vs (some c) (depth + 1) db := by
        simp only [insertWalk, hf]
      rw [heq]
      refine ⟨h1, h2, ?_, ?_⟩
      · rw [h3]
        show collectPath db c ++ vs = pathOfOpt db cur ++ v :: vs
        rw [hpathc, List.append_assoc]
        rfl
      · intro i nd h
        rcases h4 i nd h with hold | ⟨j, hj1, hj2, hjp⟩
        · exact Or.inl hold
        · refine Or.inr ⟨j + 1, by omega, by simp only [List.length_cons]; omega, ?_⟩
          rw [hjp]
          show collectPath db c ++ vs.take j = pathOfOpt db cur ++ (v :: vs).take (j + 1)
          rw [hpathc, List.take_succ_cons, List.append_assoc]
          rfl
    | none =>
      obtain ⟨hwf₀, hpath₀⟩ := WF_append_row hwf cur v depth t mj hok hdep
      set nrow : SNode := ⟨cur, v, depth + 1, t, mj⟩ with hnrow
      set db₀ : TreeDB := ⟨db.rows ++ [(db.next_id, nrow)], db.next_id + 1⟩ with hdb₀
      have hmem₀ : (db.next_id, nrow) ∈ db₀.rows := by simp [hdb₀]
      have hok₀ : parentOk db₀ (some db.next_id) := ⟨nrow, hmem₀⟩
      have hdep₀ : depth + 1 = (pathOfOpt db₀ (some db.next_id)).length := by
        show depth + 1 = (collectPath db₀ db.next_id).length
        rw [hpath₀, List.length_append, ← hdep]
        rfl
      obtain ⟨h1, h2, h3, h4⟩ := ih (some db.next_id) (depth + 1) db₀ hwf₀ hok₀ hdep₀
      have heq : insertWalk t mj (v :: vs) cur depth db =
          insertWalk t mj vs (some db.next_id) (depth + 1) db₀ := by
        simp only [insertWalk, hf, hdb₀, hnrow]
      rw [heq]
      refine ⟨h1, h2, ?_, ?_⟩
      · rw [h3]
        show collectPath db₀ db.next_id ++ vs = pathOfOpt db cur ++ v :: vs
        rw [hpath₀, List.append_assoc]
        rfl
      · intro i nd h
        rcases h4 i nd h with hold | ⟨j, hj1, hj2, hjp⟩
        · have hold' : (i, nd) ∈ db.rows ∨ (i = db.next_id ∧ nd = nrow) := by
            simpa [hdb₀] using hold
          rcases hold' with holder | ⟨hi, hnd⟩
          · exact Or.inl holder
          · subst hi
            subst hnd
            refine Or.inr ⟨1, le_refl 1, by simp, ?_⟩
            have hs : collectPath (insertWalk t mj vs (some db.next_id) (depth + 1) db₀).1
                db.next_id = collectPath db₀ db.next_id :=
              collectPath_append hwf₀.toWF0 h1.toWF0
                (insertWalk_rows_pre t mj vs (some db.next_id) (depth + 1) db₀) hmem₀
            rw [hs, hpath₀]
            rfl
        · refine Or.inr ⟨j + 1, by omega, by simp only [List.length_cons]; omega, ?_⟩
          rw [hjp]
          show collectPath db₀ db.next_id ++ vs.take j = pathOfOpt db cur ++ (v :: vs).take (j + 1)
          rw [hpath₀, List.take_succ_cons, List.append_assoc]
          rfl

theorem insertWalk_isSome (t mj : String) :
    ∀ (vs : List Int) (cur : Option Nat) (depth : Nat) (db : TreeDB),
      (vs = [] → cur.isSome) → (insertWalk t mj vs cur depth db).2.isSome := by
  intro vs
  induction vs with
  | nil => intro cur depth db h; exact h rfl
  | cons v vs ih =>
    intro cur depth db _
    cases hf : findChild db cur v with
    | some c =>
      simp only [insertWalk, hf]
      exact ih _ _ _ (fun _ => rfl)
    | none =>
      simp only [insertWalk, hf]
      exact ih _ _ _ (fun _ => rfl)

theorem insert_simplex_wf {db db' : TreeDB} {vs : List Int} {t mj : String} {n : Nat}
    (h : insert_simplex db vs t mj = .ok (db', n)) (hwf : WF db) : WF db' := by
  unfold insert_simplex at h
  by_cases hvs : vs = []
  · rw [if_pos hvs] at h; exact absurd h (by simp)
  · rw [if_neg hvs] at h
    have hw0 := (insertWalk_wf t mj (sortInts vs) none 0 db hwf trivial rfl).1
    cases hw : insertWalk t mj (sortInts vs) none 0 db with
    | mk dbw res =>
      rw [hw] at h hw0
      cases res with
      | none => exact absurd h (by simp)
      | some nid =>
        simp only [Except.ok.injEq, Prod.mk.injEq] at h
        rw [← h.1]
        exact hw0

theorem insert_simplex_rows_pre {db db' : TreeDB} {vs : List Int} {t mj : String} {n : Nat}
    (h : insert_simplex db vs t mj = .ok (db', n)) : db.rows <+: db'.rows := by
  unfold insert_simplex at h
  by_cases hvs : vs = []
  · rw [if_pos hvs] at h; exact absurd h (by simp)
  · rw [if_neg hvs] at h
    have hp := insertWalk_rows_pre t mj (sortInts vs) none 0 db
    cases hw : insertWalk t mj (sortInts vs) none 0 db with
    | mk dbw res =>
      rw [hw] at h hp
      cases res with
      | none => exact absurd h (by simp)
      | some nid =>
        simp only [Except.ok.injEq, Prod.mk.injEq] at h
        rw [← h.1]
        exact hp

theorem stepInsert_wf {db : TreeDB} (hwf : WF db) (c : InsertCall) :
    WF (stepInsert db c) := by
  unfold stepInsert
  cases hi : insert_simplex db c.vertex_ids c.simplex_type c.meta_json with
  | ok p =>
    obtain ⟨db', n⟩ := p
    exact insert_simplex_wf hi hwf
  | error e => exact hwf

theorem stepInsert_rows_pre (db : TreeDB) (c : InsertCall) :
    db.rows <+: (stepInsert db c).rows := by
  unfold stepInsert
  cases hi : insert_simplex db c.vertex_ids c.simplex_type c.meta_json with
  | ok p =>
    obtain ⟨db', n⟩ := p
    exact insert_simplex_rows_pre hi
  | error e => exact List.prefix_rfl

theorem foldl_stepInsert_rows_pre :
    ∀ (h : List InsertCall) (db : TreeDB), db.rows <+: (h.foldl stepInsert db).rows := by
  intro h
  induction h with
  | nil => intro db; exact List.prefix_rfl
  | cons c h ih =>
    intro db
    exact (stepInsert_rows_pre db c).trans (ih (stepInsert db c))

theorem empty_wf : WF TreeDB.empty := by
  refine ⟨⟨rfl, rfl, ?_⟩, ?_⟩
  · intro r hr; cases hr
  · intro r hr; cases hr

theorem foldl_stepInsert_wf :
    ∀ (h : List InsertCall) (db : TreeDB), WF db → WF (h.foldl stepInsert db) := by
  intro h
  induction h with
  | nil => intro db hwf; exact hwf
  | cons c h ih => intro db hwf; exact ih _ (stepInsert_wf hwf c)

theorem execInserts_wf (h : List InsertCall) : WF (execInserts h) :=
  foldl_stepInsert_wf h TreeDB.empty empty_wf

/-- A successful `searchWalk` lands on a row whose path is the start path
extended by the walked list. -/
theorem searchWalk_path {db : TreeDB} (wf : WF0 db) :
    ∀ (l : List Int) (cur : Option Nat) (n : Nat),
      searchWalk db l cur = some n →
      (l = [] ∧ cur = some n) ∨
      (∃ nd, (n, nd) ∈ db.rows ∧ collectPath db n = pathOfOpt db cur ++ l) := by
  intro l
  induction l with
  | nil => intro cur n h; exact Or.inl ⟨rfl, h⟩
  | cons v l ih =>
    intro cur n h
    unfold searchWalk at h
    cases hf : findChild db cur v with
    | none => rw [hf] at h; exact absurd h (by simp)
    | some c =>
      rw [hf] at h
      obtain ⟨ndc, hndc, hpc, hvc⟩ := findChild_spec hf
      have hpathc : collectPath db c = pathOfOpt db cur ++ [v] := by
        rw [collectPath_cons wf hndc, hpc, hvc]
      rcases ih (some c) n h with ⟨hl, hc⟩ | ⟨nd, hmem, hpath⟩
      · subst hl
        injection hc with hc
        subst hc
        exact Or.inr ⟨ndc, hndc, by rw [hpathc]⟩
      · refine Or.inr ⟨nd, hmem, ?_⟩
        rw [hpath]
        show collectPath db c ++ l = pathOfOpt db cur ++ v :: l
        rw [hpathc, List.append_assoc]
        rfl

theorem insert_simplex_ok {db db' : TreeDB} {vs : List Int} {t mj : String} {n : Nat}
    (h : insert_simplex db vs t mj = .ok (db', n)) :
    vs ≠ [] ∧ insertWalk t mj (sortInts vs) none 0 db = (db', some n) := by
  unfold insert_simplex at h
  by_cases hvs : vs = []
  · rw [if_pos hvs] at h; exact absurd h (by simp)
  · rw [if_neg hvs] at h
    refine ⟨hvs, ?_⟩
    cases hw : insertWalk t mj (sortInts vs) none 0 db with
    | mk dbw res =>
      rw [hw] at h
      cases res with
      | none => exact absurd h (by simp)
      | some nid =>
        simp only [Except.ok.injEq, Prod.mk.injEq] at h
        rw [h.1, h.2]

theorem sortInts_ne_nil {vs : List Int} (h : vs ≠ []) : sortInts vs ≠ [] := by
  intro he
  have hp := List.perm_insertionSort (· ≤ ·) vs
  rw [show List.insertionSort (· ≤ ·) vs = sortInts vs from rfl, he] at hp
  exact h hp.symm.eq_nil

theorem sortInts_sorted (vs : List Int) : List.Sorted (· ≤ ·) (sortInts vs) :=
  List.sorted_insertionSort _ _

theorem sortInts_nodup {vs : List Int} (h : vs.Nodup) : (sortInts vs).Nodup :=
  (List.perm_insertionSort (· ≤ ·) vs).nodup_iff.mpr h

/-- One insert step preserves "every path is strictly increasing", given the
inserted vertex list has no duplicates. -/
theorem stepInsert_sorted_paths {db : TreeDB} (hwf : WF db) (c : InsertCall)
    (hnod : c.vertex_ids.Nodup)
    (hinv : ∀ i nd, (i, nd) ∈ db.rows → List.Pairwise (· < ·) (collectPath db i)) :
    ∀ i nd, (i, nd) ∈ (stepInsert db c).rows →
      List.Pairwise (· < ·) (collectPath (stepInsert db c) i) := by
  intro i nd hmem
  unfold stepInsert at hmem ⊢
  cases hi : insert_simplex db c.vertex_ids c.simplex_type c.meta_json with
  | error e =>
    rw [hi] at hmem
    exact hinv i nd hmem
  | ok p =>
    obtain ⟨db', n⟩ := p
    rw [hi] at hmem
    have hmem' : (i, nd) ∈ db'.rows := hmem
    show List.Pairwise (· < ·) (collectPath db' i)
    obtain ⟨hvs, hw⟩ := insert_simplex_ok hi
    obtain ⟨h1, h2, h3, h4⟩ :=
      insertWalk_wf c.simplex_type c.meta_json (sortInts c.vertex_ids) none 0 db hwf trivial rfl
    rw [hw] at h1 h4
    rcases h4 i nd hmem' with hold | ⟨j, hj1, hj2, hjp⟩
    · have hs : collectPath db' i = collectPath db i :=
        collectPath_append hwf.toWF0 h1.toWF0 (insert_simplex_rows_pre hi) hold
      rw [hs]
      exact hinv i nd hold
    · rw [hjp]
      show List.Pairwise (· < ·) ([] ++ (sortInts c.vertex_ids).take j)
      rw [List.nil_append]
      have hsorted : List.Sorted (· < ·) (sortInts c.vertex_ids) :=
        (sortInts_sorted c.vertex_ids).lt_of_le (sortInts_nodup hnod)
      exact hsorted.sublist (List.take_sublist j _)

theorem foldl_sorted_paths :
    ∀ (h : List InsertCall), (∀ c ∈ h, c.vertex_ids.Nodup) →
    ∀ db : TreeDB, WF db →
      (∀ i nd, (i, nd) ∈ db.rows → List.Pairwise (· < ·) (collectPath db i)) →
      ∀ i nd, (i, nd) ∈ (h.foldl stepInsert db).rows →
        List.Pairwise (· < ·) (collectPath (h.foldl stepInsert db) i) := by
  intro h
  induction h with
  | nil => intro _ db _ hinv i nd hmem; exact hinv i nd hmem
  | cons c h ih =>
    intro hnod db hwf hinv
    exact ih (fun c' hc' => hnod c' (List.mem_cons_of_mem _ hc'))
      (stepInsert db c) (stepInsert_wf hwf c)
      (stepInsert_sorted_paths hwf c (hnod c (List.mem_cons_self _ _)) hinv)

/-- C6 (amended): after any sequence of `insert_simplex` calls whose
argument lists are duplicate-free, every node's root-to-self path, read
top-down, is a strictly increasing sequence of vertex ids.  (With duplicate
vertices in an argument list the invariant fails, see the counterexample.) -/
theorem sorted_path_invariant (h : List InsertCall)
    (hnd : ∀ c ∈ h, c.vertex_ids.Nodup) :
    ∀ i nd, (i, nd) ∈ (execInserts h).rows →
      List.Chain' (· < ·) (collectPath (execInserts h) i) := by
  intro i nd hmem
  rw [List.chain'_iff_pairwise]
  exact foldl_sorted_paths h hnd TreeDB.empty empty_wf
    (fun i nd hm => by cases hm) i nd hmem

/-- Witness for C6 on the single duplicate-free insert `[2,1]`. -/
theorem sorted_path_invariant_witness :
    (∀ c ∈ [(⟨[2, 1], "t", "m"⟩ : InsertCall)], c.vertex_ids.Nodup) ∧
    List.Chain' (· < ·) (collectPath (execInserts [⟨[2, 1], "t", "m"⟩]) 2) :=
  ⟨by decide,
    sorted_path_invariant [⟨[2, 1], "t", "m"⟩] (by decide) 2
      ⟨some 1, 2, 2, "t", "m"⟩ (by decide)⟩

theorem stepInsert_paths_from_calls (H : List InsertCall) {db : TreeDB} (hwf : WF db)
    {c : InsertCall} (hc : c ∈ H)
    (hinv : ∀ i nd, (i, nd) ∈ db.rows → ∃ cc ∈ H, cc.vertex_ids ≠ [] ∧
      collectPath db i <+: sortInts cc.vertex_ids) :
    ∀ i nd, (i, nd) ∈ (stepInsert db c).rows →
      ∃ cc ∈ H, cc.vertex_ids ≠ [] ∧
        collectPath (stepInsert db c) i <+: sortInts cc.vertex_ids := by
  intro i nd hmem
  unfold stepInsert at hmem ⊢
  cases hi : insert_simplex db c.vertex_ids c.simplex_type c.meta_json with
  | error e =>
    rw [hi] at hmem
    exact hinv i nd hmem
  | ok p =>
    obtain ⟨db', n⟩ := p
    rw [hi] at hmem
    have hmem' : (i, nd) ∈ db'.rows := hmem
    show ∃ cc ∈ H, cc.vertex_ids ≠ [] ∧ collectPath db' i <+: sortInts cc.vertex_ids
    obtain ⟨hvs, hw⟩ := insert_simplex_ok hi
    obtain ⟨h1, h2, h3, h4⟩ :=
      insertWalk_wf c.simplex_type c.meta_json (sortInts c.vertex_ids) none 0 db hwf trivial rfl
    rw [hw] at h1 h4
    rcases h4 i nd hmem' with hold | ⟨j, hj1, hj2, hjp⟩
    · obtain ⟨cc, hccH, hccne, hccpre⟩ := hinv i nd hold
      refine ⟨cc, hccH, hccne, ?_⟩
      rw [collectPath_append hwf.toWF0 h1.toWF0 (insert_simplex_rows_pre hi) hold]
      exact hccpre
    · refine ⟨c, hc, hvs, ?_⟩
      rw [hjp]
      show ([] ++ (sortInts c.vertex_ids).take j) <+: sortInts c.vertex_ids
      rw [List.nil_append]
      exact List.take_prefix j _

theorem foldl_paths_from_calls (H : List InsertCall) :
    ∀ (h : List InsertCall), (∀ c ∈ h, c ∈ H) →
    ∀ db : TreeDB, WF db →
      (∀ i nd, (i, nd) ∈ db.rows → ∃ cc ∈ H, cc.vertex_ids ≠ [] ∧
        collectPath db i <+: sortInts cc.vertex_ids) →
      ∀ i nd, (i, nd) ∈ (h.foldl stepInsert db).rows →
        ∃ cc ∈ H, cc.vertex_ids ≠ [] ∧
          collectPath (h.foldl stepInsert db) i <+: sortInts cc.vertex_ids := by
  intro h
  induction h with
  | nil => intro _ db _ hinv i nd hmem; exact hinv i nd hmem
  | cons c h ih =>
    intro hH db hwf hinv
    exact ih (fun c' hc' => hH c' (List.mem_cons_of_mem _ hc'))
      (stepInsert db c) (stepInsert_wf hwf c)
      (stepInsert_paths_from_calls H hwf (hH c (List.mem_cons_self _ _)) hinv)

theorem search_some_of_exec {h : List InsertCall} {vs : List Int} (hvs : vs ≠ [])
    (hs : (search_simplex (execInserts h) vs).isSome) :
    ∃ c ∈ h, c.vertex_ids ≠ [] ∧ sortInts vs <+: sortInts c.vertex_ids := by
  obtain ⟨n, hn⟩ := Option.isSome_iff_exists.mp hs
  unfold search_simplex at hn
  rw [if_neg hvs] at hn
  have hwf := execInserts_wf h
  rcases searchWalk_path hwf.toWF0 (sortInts vs) none n hn with ⟨hnil, _⟩ | ⟨nd, hmem, hpath⟩
  · exact absurd hnil (sortInts_ne_nil hvs)
  · have hpath' : collectPath (execInserts h) n = sortInts vs := by
      rw [hpath]
      rfl
    have hmem2 : (n, nd) ∈ (h.foldl stepInsert TreeDB.empty).rows := hmem
    obtain ⟨cc, hcc, hccne, hccpre⟩ :=
      foldl_paths_from_calls h h (fun c hc => hc) TreeDB.empty empty_wf
        (fun i nd hm => by cases hm) n nd hmem2
    have hsame : collectPath (h.foldl stepInsert TreeDB.empty) n =
        collectPath (execInserts h) n := rfl
    rw [hsame, hpath'] at hccpre
    exact ⟨cc, hcc, hccne, hccpre⟩

theorem insert_simplex_some (db : TreeDB) (vs : List Int) (t mj : String) (hvs : vs ≠ []) :
    ∃ db' n, insert_simplex db vs t mj = .ok (db', n) := by
  have hsome := insertWalk_isSome t mj (sortInts vs) none 0 db
    (fun he => absurd he (sortInts_ne_nil hvs))
  cases hw : insertWalk t mj (sortInts vs) none 0 db with
  | mk dbw res =>
    rw [hw] at hsome
    cases res with
    | none => exact absurd hsome (by simp)
    | some nid =>
      refine ⟨dbw, nid, ?_⟩
      unfold insert_simplex
      rw [if_neg hvs, hw]

theorem exec_search_of_call {h₁ h₂ : List InsertCall} {c : InsertCall} {vs : List Int}
    (hvs : vs ≠ []) (hcne : c.vertex_ids ≠ [])
    (hpre : sortInts vs <+: sortInts c.vertex_ids) :
    (search_simplex (execInserts (h₁ ++ c :: h₂)) vs).isSome := by
  obtain ⟨db₂, n, hi⟩ :=
    insert_simplex_some (execInserts h₁) c.vertex_ids c.simplex_type c.meta_json hcne
  have hstep : stepInsert (execInserts h₁) c = db₂ := by
    unfold stepInsert
    rw [hi]
  obtain ⟨_, hw⟩ := insert_simplex_ok hi
  have hk1 : 1 ≤ (sortInts vs).length := by
    cases hsv : sortInts vs with
    | nil => exact absurd hsv (sortInts_ne_nil hvs)
    | cons a l => simp
  have htake := insertWalk_searchWalk_take c.simplex_type c.meta_json
    (sortInts c.vertex_ids) none 0 (execInserts h₁) (sortInts vs).length hk1 hpre.length_le
  rw [hw] at htake
  rw [← List.prefix_iff_eq_take.mp hpre] at htake
  have htake' : (searchWalk db₂ (sortInts vs) none).isSome := htake
  obtain ⟨m, hm⟩ := Option.isSome_iff_exists.mp htake'
  have hrows : db₂.rows <+: (execInserts (h₁ ++ c :: h₂)).rows := by
    have he : execInserts (h₁ ++ c :: h₂) =
        h₂.foldl stepInsert (stepInsert (execInserts h₁) c) := by
      unfold execInserts
      rw [List.foldl_append, List.foldl_cons]
    rw [he, hstep]
    exact foldl_stepInsert_rows_pre h₂ db₂
  have hm' := searchWalk_mono hrows (sortInts vs) none m hm
  unfold search_simplex
  rw [if_neg hvs, hm']
  rfl

/-- C3 (amended): in a tree built only by `insert_simplex` calls, for any
non-empty `vs`, `search_simplex(vs)` returns some id iff some previous call
`insert_simplex(ws, …)` with non-empty `ws` had `sorted(vs)` as a prefix of
`sorted(ws)`; and whenever `insert_simplex(vs, …)` itself was called, the
searched id equals the id that insert returned (in particular the first
such insert's id). -/
theorem search_insert_round_trip :
    (∀ (h : List InsertCall) (vs : List Int), vs ≠ [] →
      ((search_simplex (execInserts h) vs).isSome ↔
        ∃ c ∈ h, c.vertex_ids ≠ [] ∧ sortInts vs <+: sortInts c.vertex_ids)) ∧
    (∀ (h₁ h₂ : List InsertCall) (vs : List Int) (t mj : String) (db' : TreeDB) (n : Nat),
      insert_simplex (execInserts h₁) vs t mj = .ok (db', n) →
      search_simplex (execInserts (h₁ ++ ⟨vs, t, mj⟩ :: h₂)) vs = some n) := by
  constructor
  · intro h vs hvs
    constructor
    · exact search_some_of_exec hvs
    · rintro ⟨c, hc, hcne, hpre⟩
      obtain ⟨h₁, h₂, rfl⟩ := List.append_of_mem hc
      exact exec_search_of_call hvs hcne hpre
  · intro h₁ h₂ vs t mj db' n hi
    obtain ⟨hvs, hw⟩ := insert_simplex_ok hi
    have hfull := insertWalk_searchWalk t mj (sortInts vs) none 0 (execInserts h₁)
    rw [hw] at hfull
    have hfull' : searchWalk db' (sortInts vs) none = some n := hfull
    have hstep : stepInsert (execInserts h₁) ⟨vs, t, mj⟩ = db' := by
      show (match insert_simplex (execInserts h₁) vs t mj with
        | .ok (dbx, _) => dbx
        | .error _ => execInserts h₁) = db'
      rw [hi]
    have hrows : db'.rows <+: (execInserts (h₁ ++ ⟨vs, t, mj⟩ :: h₂)).rows := by
      have he : execInserts (h₁ ++ ⟨vs, t, mj⟩ :: h₂) =
          h₂.foldl stepInsert (stepInsert (execInserts h₁) ⟨vs, t, mj⟩) := by
        unfold execInserts
        rw [List.foldl_append, List.foldl_cons]
      rw [he, hstep]
      exact foldl_stepInsert_rows_pre h₂ db'
    have hm := searchWalk_mono hrows (sortInts vs) none n hfull'
    unfold search_simplex
    rw [if_neg hvs, hm]

/-- Witness for C3 on concrete histories. -/
theorem search_insert_round_trip_witness :
    search_simplex (execInserts ([] ++ (⟨[1, 2], "t", "m"⟩ : InsertCall) :: [])) [1, 2] =
      some 2 ∧
    (search_simplex (execInserts [(⟨[1, 2], "t", "m"⟩ : InsertCall)]) [1]).isSome := by
  constructor
  · exact search_insert_round_trip.2 [] [] [1, 2] "t" "m"
      (execInserts [⟨[1, 2], "t", "m"⟩]) 2 rfl
  · exact (search_insert_round_trip.1 [⟨[1, 2], "t", "m"⟩] [1] (by decide)).mpr
      ⟨⟨[1, 2], "t", "m"⟩, by decide, by decide, ⟨[2], by decide⟩⟩

/-! ## Machinery for the coface-correctness claim -/

theorem childRel_lt {db : TreeDB} (wf : WF0 db) {a c : Nat} (h : ChildRel db a c) : a < c := by
  obtain ⟨nd, hmem, hp⟩ := h
  exact (wf.par _ hmem a hp).2

theorem desc_lt {db : TreeDB} (wf : WF0 db) {a m : Nat} (h : Desc db a m) : a < m := by
  induction h with
  | single hr => exact childRel_lt wf hr
  | tail _ hr ih => exact lt_trans ih (childRel_lt wf hr)

/-- Every length-`j` front of a node's path is itself the path of a node:
the ancestor at depth `j`. -/
theorem ancestor_at_prefix {db : TreeDB} (wf : WF0 db) :
    ∀ m, ∀ nd : SNode, (m, nd) ∈ db.rows → ∀ j, 1 ≤ j → j ≤ (collectPath db m).length →
      ∃ a nda, (a, nda) ∈ db.rows ∧ collectPath db a = (collectPath db m).take j ∧
        (a = m ∨ Desc db a m) := by
  intro m
  induction m using Nat.strong_induction_on with
  | _ m ih =>
    intro nd hmem j hj1 hj2
    have hrec := collectPath_cons wf hmem
    by_cases hjfull : j = (collectPath db m).length
    · refine ⟨m, nd, hmem, ?_, Or.inl rfl⟩
      rw [hjfull, List.take_length]
    · have hjlt : j < (collectPath db m).length := lt_of_le_of_ne hj2 hjfull
      cases hp : nd.parent_id with
      | none =>
        rw [hp] at hrec
        rw [hrec] at hjlt
        simp only [pathOfOpt, List.nil_append, List.length_cons, List.length_nil] at hjlt
        omega
      | some p =>
        rw [hp] at hrec
        have hpb := wf.par _ hmem p hp
        have hml := wf.mem_bounds hmem
        obtain ⟨ndp, hndp⟩ := wf.keys_complete hpb.1 (by omega)
        have hplen : (collectPath db m).length = (collectPath db p).length + 1 := by
          rw [hrec]
          show ((collectPath db p) ++ [nd.vertex_id]).length = _
          rw [List.length_append]
          rfl
        have hjp : j ≤ (collectPath db p).length := by omega
        obtain ⟨a, nda, hamem, hatake, hado⟩ := ih p hpb.2 ndp hndp j hj1 hjp
        refine ⟨a, nda, hamem, ?_, ?_⟩
        · rw [hatake, hrec]
          show (collectPath db p).take j = ((collectPath db p) ++ [nd.vertex_id]).take j
          rw [List.take_append_of_le_length hjp]
        · right
          have hchild : ChildRel db p m := ⟨nd, hmem, hp⟩
          rcases hado with rfl | hd
          · exact Relation.TransGen.single hchild
          · exact Relation.TransGen.tail hd hchild

/-- A descendant's path is collected by the unlimited-depth subtree walk
from any of its proper ancestors, given enough fuel. -/
theorem subtree_mem {db : TreeDB} (wf : WF0 db) {m : Nat} :
    ∀ {a : Nat}, Desc db a m → ∀ fuel cur, m - a ≤ fuel →
      collectPath db m ∈ collectSubtree db fuel a (collectPath db a) none cur := by
  intro a hdesc
  induction hdesc using Relation.TransGen.head_induction_on with
  | base hr =>
    rename_i a'
    intro fuel cur hfuel
    obtain ⟨nd, hmem, hp⟩ := hr
    have hlt : a' < m := (wf.par _ hmem a' hp).2
    obtain ⟨f, rfl⟩ : ∃ f, fuel = f + 1 := ⟨fuel - 1, by omega⟩
    rw [collectSubtree, if_neg (by simp [subtreeStop])]
    apply List.mem_flatMap.mpr
    refine ⟨(m, nd), List.mem_filter.mpr ⟨hmem, by simp [hp]⟩, ?_⟩
    have hpm : collectPath db a' ++ [nd.vertex_id] = collectPath db m := by
      rw [collectPath_cons wf hmem, hp]
      rfl
    rw [hpm]
    exact List.mem_cons_self _ _
  | ih hr hdesc ihc =>
    rename_i a' c
    intro fuel cur hfuel
    obtain ⟨nd, hmemc, hp⟩ := hr
    have hac : a' < c := (wf.par _ hmemc a' hp).2
    have hcm : c < m := desc_lt wf hdesc
    obtain ⟨f, rfl⟩ : ∃ f, fuel = f + 1 := ⟨fuel - 1, by omega⟩
    rw [collectSubtree, if_neg (by simp [subtreeStop])]
    apply List.mem_flatMap.mpr
    refine ⟨(c, nd), List.mem_filter.mpr ⟨hmemc, by simp [hp]⟩, ?_⟩
    have hpathc : collectPath db a' ++ [nd.vertex_id] = collectPath db c := by
      rw [collectPath_cons wf hmemc, hp]
      rfl
    rw [hpathc]
    exact List.mem_cons_of_mem _ (ihc f (cur + 1) (by omega))

/-- The iterator-based subsequence test accepts any strictly sorted list
whose elements all occur in a strictly sorted haystack. -/
theorem isSubseq_of_subset_sorted :
    ∀ (b a : List Int), List.Sorted (· < ·) a → List.Sorted (· < ·) b →
      (∀ x ∈ a, x ∈ b) → isSubseq a b = true := by
  intro b
  induction b with
  | nil =>
    intro a _ _ hsub
    cases a with
    | nil => rfl
    | cons x l => exact absurd (hsub x (List.mem_cons_self _ _)) (List.not_mem_nil x)
  | cons y b ih =>
    intro a ha hb hsub
    cases a with
    | nil => rfl
    | cons x l =>
      by_cases hxy : x = y
      · subst hxy
        have hcons : consumeTo x (x :: b) = some b := by
          unfold consumeTo
          simp
        have htail := ih l ha.of_cons hb.of_cons ?_
        · show isSubseq (x :: l) (x :: b) = true
          simp only [isSubseq, hcons]
          exact htail
        · intro z hz
          have hxz : x < z := (List.sorted_cons.mp ha).1 z hz
          rcases List.mem_cons.mp (hsub z (List.mem_cons_of_mem _ hz)) with rfl | hzb
          · exact absurd hxz (lt_irrefl z)
          · exact hzb
      · have hxb : x ∈ b := by
          rcases List.mem_cons.mp (hsub x (List.mem_cons_self _ _)) with h | h
          · exact absurd h hxy
          · exact h
        have hsub' : ∀ z ∈ x :: l, z ∈ b := by
          intro z hz
          rcases List.mem_cons.mp hz with rfl | hzl
          · exact hxb
          · have hxz : x < z := (List.sorted_cons.mp ha).1 z hzl
            rcases List.mem_cons.mp (hsub z (List.mem_cons_of_mem _ hzl)) with rfl | h
            · have hyx : z < x := (List.sorted_cons.mp hb).1 x hxb
              omega
            · exact h
        have hcons : consumeTo x (y :: b) = consumeTo x b := by
          have hyx : (y == x) = false := beq_eq_false_iff_ne.mpr (Ne.symm hxy)
          show (if (y == x) = true then some b else consumeTo x b) = consumeTo x b
          rw [if_neg (by simp [hyx])]
        have := ih (x :: l) ha hb.of_cons hsub'
        show isSubseq (x :: l) (y :: b) = true
        simp only [isSubseq, hcons]
        simp only [isSubseq] at this
        exact this

theorem getLastD_mem : ∀ (L : List Int) (d : Int), L ≠ [] → L.getLastD d ∈ L := by
  intro L
  induction L with
  | nil => intro d h; exact absurd rfl h
  | cons p L ih =>
    intro d _
    cases hL : L with
    | nil => simp [List.getLastD]
    | cons q L' =>
      rw [List.getLastD_eq_getLast?, List.getLast?_cons_cons, ← List.getLastD_eq_getLast?]
      exact List.mem_cons_of_mem _ (hL ▸ ih d (by simp [hL]))

theorem le_getLastD_of_sorted :
    ∀ (L : List Int), List.Sorted (· ≤ ·) L → ∀ (d x : Int), x ∈ L → x ≤ L.getLastD d := by
  intro L
  induction L with
  | nil => intro _ d x h; cases h
  | cons p L ih =>
    intro hs d x hx
    cases hL : L with
    | nil =>
      subst hL
      rcases List.mem_cons.mp hx with rfl | h
      · simp [List.getLastD]
      · cases h
    | cons q L' =>
      rw [List.getLastD_eq_getLast?, List.getLast?_cons_cons, ← List.getLastD_eq_getLast?]
      rcases List.mem_cons.mp hx with rfl | h
      · have hpq : x ≤ q := (List.sorted_cons.mp hs).1 q (by simp [hL])
        have : q ≤ (q :: L').getLastD d :=
          hL ▸ ih (hs.of_cons) d q (by simp [hL])
        calc x ≤ q := hpq
          _ ≤ _ := by rw [← hL] at this ⊢; exact this
      · exact hL ▸ ih hs.of_cons d x (hL ▸ h)

theorem mem_takeWhile_of_sorted {l : List Int} (hs : List.Sorted (· < ·) l) {x last : Int}
    (hx : x ∈ l) (hle : x ≤ last) :
    x ∈ l.takeWhile (fun z => decide (z ≤ last)) := by
  induction l with
  | nil => cases hx
  | cons p l ih =>
    rcases List.mem_cons.mp hx with rfl | hxl
    · rw [List.takeWhile_cons, if_pos (by simpa using hle)]
      exact List.mem_cons_self _ _
    · have hpx : p < x := (List.sorted_cons.mp hs).1 x hxl
      have hple : p ≤ last := le_trans (le_of_lt hpx) hle
      rw [List.takeWhile_cons, if_pos (by simpa using hple)]
      exact List.mem_cons_of_mem _ (ih hs.of_cons hxl)

theorem getLast?_of_max :
    ∀ (L : List Int), List.Sorted (· < ·) L → ∀ last, last ∈ L →
      (∀ x ∈ L, x ≤ last) → L.getLast? = some last := by
  intro L
  induction L with
  | nil => intro _ last h; cases h
  | cons p L ih =>
    intro hs last hmem hbound
    cases hL : L with
    | nil =>
      subst hL
      rcases List.mem_cons.mp hmem with rfl | h
      · rfl
      · cases h
    | cons q L' =>
      subst hL
      rw [List.getLast?_cons_cons]
      apply ih hs.of_cons last ?_ ?_
      · rcases List.mem_cons.mp hmem with rfl | h
        · have hpq : last < q := (List.sorted_cons.mp hs).1 q (List.mem_cons_self _ _)
          have hqle : q ≤ last := hbound q (List.mem_cons_of_mem _ (List.mem_cons_self _ _))
          omega
        · exact h
      · intro x hx
        exact hbound x (List.mem_cons_of_mem _ hx)

theorem length_le_of_subset_nodup {a b : List Int} (hna : a.Nodup) (hnb : b.Nodup)
    (hsub : ∀ x ∈ a, x ∈ b) : a.length ≤ b.length := by
  rw [← List.toFinset_card_of_nodup hna, ← List.toFinset_card_of_nodup hnb]
  apply Finset.card_le_card
  intro x hx
  rw [List.mem_toFinset] at hx ⊢
  exact hsub x hx

/-- C1 (amended): for every simplex σ present in the tree (a node whose
root-to-self path is the strictly increasing list σ) and every non-empty
duplicate-free subset τ of σ, `locate_cofaces(τ)` with unlimited subtree
descent (`max_extra_depth = none`) returns a list that includes σ.  With
the implementation's default `max_extra_depth = 0` this fails, see the
counterexample. -/
theorem coface_correctness_unlimited_depth (h : List InsertCall) (m : Nat) (ndm : SNode)
    (σ τ : List Int) (hm : (m, ndm) ∈ (execInserts h).rows)
    (hσ : collectPath (execInserts h) m = σ) (hσs : List.Sorted (· < ·) σ)
    (hτne : τ ≠ []) (hτnd : τ.Nodup) (hτσ : ∀ x ∈ τ, x ∈ σ) :
    σ ∈ locate_cofaces (execInserts h) τ none := by
  have hwf : WF (execInserts h) := execInserts_wf h
  have hτ'ne : sortInts τ ≠ [] := sortInts_ne_nil hτne
  have hτ's : List.Sorted (· < ·) (sortInts τ) :=
    (sortInts_sorted τ).lt_of_le (sortInts_nodup hτnd)
  have hτ'σ : ∀ x ∈ sortInts τ, x ∈ σ := fun x hx =>
    hτσ x ((List.perm_insertionSort (· ≤ ·) τ).subset hx)
  have hlastmem : (sortInts τ).getLastD 0 ∈ sortInts τ := getLastD_mem _ 0 hτ'ne
  have hbound : ∀ x ∈ sortInts τ, x ≤ (sortInts τ).getLastD 0 :=
    fun x hx => le_getLastD_of_sorted _ (sortInts_sorted τ) 0 x hx
  have hlast_in_σ : (sortInts τ).getLastD 0 ∈ σ := hτ'σ _ hlastmem
  have hP'pre : σ.takeWhile (fun z => decide (z ≤ (sortInts τ).getLastD 0)) <+: σ :=
    List.takeWhile_prefix _
  have hP'sorted : List.Sorted (· < ·)
      (σ.takeWhile (fun z => decide (z ≤ (sortInts τ).getLastD 0))) :=
    List.Pairwise.sublist hP'pre.sublist hσs
  have hlastP' : (sortInts τ).getLastD 0 ∈
      σ.takeWhile (fun z => decide (z ≤ (sortInts τ).getLastD 0)) :=
    mem_takeWhile_of_sorted hσs hlast_in_σ (le_refl _)
  have hτ'P' : ∀ x ∈ sortInts τ,
      x ∈ σ.takeWhile (fun z => decide (z ≤ (sortInts τ).getLastD 0)) :=
    fun x hx => mem_takeWhile_of_sorted hσs (hτ'σ x hx) (hbound x hx)
  have hP'getLast : (σ.takeWhile (fun z => decide (z ≤ (sortInts τ).getLastD 0))).getLast? =
      some ((sortInts τ).getLastD 0) :=
    getLast?_of_max _ hP'sorted _ hlastP'
      (fun x hx => by simpa using List.mem_takeWhile_imp hx)
  have hj1 : 1 ≤ (σ.takeWhile (fun z => decide (z ≤ (sortInts τ).getLastD 0))).length := by
    cases hc : σ.takeWhile (fun z => decide (z ≤ (sortInts τ).getLastD 0)) with
    | nil => rw [hc] at hlastP'; cases hlastP'
    | cons a l => simp
  have hj2 : (σ.takeWhile (fun z => decide (z ≤ (sortInts τ).getLastD 0))).length ≤
      (collectPath (execInserts h) m).length := by
    rw [hσ]
    exact hP'pre.length_le
  obtain ⟨n, ndn, hnmem, hntake, hndesc⟩ :=
    ancestor_at_prefix hwf.toWF0 m ndm hm
      (σ.takeWhile (fun z => decide (z ≤ (sortInts τ).getLastD 0))).length hj1 hj2
  have hnpath : collectPath (execInserts h) n =
      σ.takeWhile (fun z => decide (z ≤ (sortInts τ).getLastD 0)) := by
    rw [hntake, hσ]
    exact (List.prefix_iff_eq_take.mp hP'pre).symm
  have hnvid : ndn.vertex_id = (sortInts τ).getLastD 0 := by
    have hrec := collectPath_cons hwf.toWF0 hnmem
    have hlast2 : (collectPath (execInserts h) n).getLast? = some ndn.vertex_id := by
      rw [hrec]
      exact List.getLast?_concat _
    rw [hnpath, hP'getLast] at hlast2
    injection hlast2 with h'
    exact h'.symm
  have hndepth : ndn.depth =
      (σ.takeWhile (fun z => decide (z ≤ (sortInts τ).getLastD 0))).length := by
    rw [hwf.dep _ hnmem, hnpath]
  have hmin : (sortInts τ).length ≤
      (σ.takeWhile (fun z => decide (z ≤ (sortInts τ).getLastD 0))).length :=
    length_le_of_subset_nodup (sortInts_nodup hτnd) hP'sorted.nodup hτ'P'
  have hsubseq : isSubseq (sortInts τ)
      (σ.takeWhile (fun z => decide (z ≤ (sortInts τ).getLastD 0))) = true :=
    isSubseq_of_subset_sorted _ _ hτ's hP'sorted hτ'P'
  unfold locate_cofaces
  rw [if_neg hτne]
  apply List.mem_flatMap.mpr
  refine ⟨(n, ndn), ?_, ?_⟩
  · apply List.mem_filter.mpr
    refine ⟨hnmem, ?_⟩
    rw [Bool.and_eq_true]
    constructor
    · show (ndn.vertex_id == (sortInts τ).getLastD 0) = true
      rw [hnvid]
      exact beq_self_eq_true _
    · show decide ((sortInts τ).length ≤ ndn.depth) = true
      rw [hndepth]
      exact decide_eq_true hmin
  · show σ ∈ if isSubseq (sortInts τ) (collectPath (execInserts h) n) then
      collectPath (execInserts h) n ::
        collectSubtree (execInserts h) (execInserts h).rows.length n
          (collectPath (execInserts h) n) none 0
    else []
    rw [hnpath, if_pos hsubseq, ← hnpath]
    rcases hndesc with rfl | hd
    · rw [hσ]
      exact List.mem_cons_self _ _
    · have hmb := hwf.toWF0.mem_bounds hm
      have := subtree_mem hwf.toWF0 hd (execInserts h).rows.length 0 (by omega)
      rw [hσ] at this
      exact List.mem_cons_of_mem _ this

/-- Witness for C1: in the tree holding `[1,2]`, `locate_cofaces([1])` with
unlimited descent returns `[1,2]`. -/
theorem coface_correctness_unlimited_depth_witness :
    ([1] ≠ ([] : List Int)) ∧
    [1, 2] ∈ locate_cofaces (execInserts [⟨[1, 2], "t", "m"⟩]) [1] none :=
  ⟨by decide,
    coface_correctness_unlimited_depth [⟨[1, 2], "t", "m"⟩] 2 ⟨some 1, 2, 2, "t", "m"⟩
      [1, 2] [1] (by decide) (by decide) (by decide) (by decide) (by decide) (by decide)⟩

end SimplicialMemories
